import Mathlib

/-!
Verification of the indexed binary heap in `src/binaryheap.rs`.

The Rust structure `BinaryHeap<T, S>` stores a dense sequence of elements
(`VecDeque<T>`, modelled as `List T`, index 0 = front), a heap kind
(`Max`/`Min`), and a lookup table from a value's hash to the list of
positions currently holding that value (`HashMap<u64, Vec<usize>>`,
modelled as an association list keyed by `Nat`).  The hasher is modelled
as an explicit function `hash : T → Nat` passed to every operation.

Rust `panic!`/`unwrap` failure sites are modelled by `Option`: a function
that can panic returns `none` on the panic path.  Machine indices are
modelled as unbounded naturals; the one place the source computes a
possibly-negative index in signed arithmetic (`parent_index` of position
`0`, which produces `-1` and is then out of range after the cast to
`usize`) is modelled by an explicit signed computation that yields `none`
when negative.  The `ind as i32` cast in `parent_index` is therefore
modelled exactly for indices below `2^31`; its wrap-around for larger
indices (unreachable for any heap that fits in memory) is idealised away.
-/

inductive HeapKind where
  | Max : HeapKind
  | Min : HeapKind
deriving DecidableEq

structure BinaryHeap (T : Type) where
  elements : List T
  kind : HeapKind
  element_indices : List (Nat × List Nat)
deriving DecidableEq

/-- Association-list read, modelling `HashMap::get`. -/
def tableGet (table : List (Nat × List Nat)) (key : Nat) : Option (List Nat) :=
  match table with
  | [] => none
  | (k, v) :: rest => if k = key then some v else tableGet rest key

/-- Association-list write, modelling `HashMap::insert` (replace or add) and
in-place mutation through `HashMap::get_mut`. -/
def tableSet (table : List (Nat × List Nat)) (key : Nat) (val : List Nat) :
    List (Nat × List Nat) :=
  match table with
  | [] => [(key, val)]
  | (k, v) :: rest =>
      if k = key then (k, val) :: rest else (k, v) :: tableSet rest key val

/-- The list of positions recorded for a hash key (empty when the key is
absent).  The source never distinguishes an absent bucket from an empty
one when reading. -/
def positionsOf {T : Type} (h : BinaryHeap T) (key : Nat) : List Nat :=
  (tableGet h.element_indices key).getD []

/-- Source: `fn even(num: usize) -> bool { num % 2 == 0 }` -/
def even (num : Nat) : Bool := num % 2 == 0

/-- Source: `const PARENT_VIOLATION`. -/
def PARENT_VIOLATION : String := "PARENT_VIOLATION"

/-- Source: `const CHILDREN_VIOLATION`. -/
def CHILDREN_VIOLATION : String := "CHILDREN_VIOLATION"

/-- One heap mutation, for stating properties of operation sequences. -/
inductive HeapOp (T : Type) where
  | insert (x : T) : HeapOp T
  | extract : HeapOp T
  | remove (x : T) : HeapOp T

namespace BinaryHeap

variable {T : Type} [LinearOrder T]

/-- Source: `BinaryHeap::new`. -/
def new (heap_type : HeapKind) : BinaryHeap T :=
  { elements := [], kind := heap_type, element_indices := [] }

/-- Source: `element_at`, i.e. `self.elements.get(ind)`. -/
def element_at (h : BinaryHeap T) (ind : Nat) : Option T :=
  h.elements[ind]?

/-- Source: `hash_value` (the hasher applied to one element). -/
def hash_value (hash : T → Nat) (element : T) : Nat := hash element

/-- Source: `verify_priority`: may `obj1` sit at-or-above `obj2`? -/
def verify_priority (h : BinaryHeap T) (obj1 obj2 : T) : Bool :=
  match h.kind with
  | HeapKind.Max => decide (obj1 ≥ obj2)
  | HeapKind.Min => decide (obj1 ≤ obj2)

/-- The parent slot arithmetic of `parent_index`: `ind / 2 - 1` for even
`ind` (in signed arithmetic, so `-1` for `ind = 0`, which the `as usize`
cast sends out of range, modelled as `none`) and `ind / 2` for odd
`ind`. -/
def parent_slot (child_ind : Nat) : Option Nat :=
  if even child_ind then
    let parent_ind : Int := (child_ind : Int) / 2 - 1
    if 0 ≤ parent_ind then some parent_ind.toNat else none
  else
    some (child_ind / 2)

/-- Source: `parent_index`.  For an in-range `child_ind` the parent slot is
computed by `parent_slot`, and is returned only when that slot is
occupied. -/
def parent_index (h : BinaryHeap T) (child_ind : Nat) : Option Nat :=
  (element_at h child_ind).bind fun _ =>
    (parent_slot child_ind).bind fun parent_ind =>
      (element_at h parent_ind).map fun _ => parent_ind

/-- Source: `children_indices`: slots `(i+1)*2 - 1` and `(i+1)*2`, each
reported only when occupied. -/
def children_indices (h : BinaryHeap T) (parent_ind : Nat) :
    Option Nat × Option Nat :=
  let child_1_ind : Nat := (parent_ind + 1) * 2 - 1
  let child_2_ind : Nat := (parent_ind + 1) * 2
  match element_at h child_1_ind, element_at h child_2_ind with
  | some _, some _ => (some child_1_ind, some child_2_ind)
  | some _, none => (some child_1_ind, none)
  | none, some _ => (none, some child_2_ind)
  | none, none => (none, none)

/-- Source: `verify_parent`: the parent lookup's `unwrap` is modelled by
`Option.map` (it cannot fail because `parent_index` checked occupancy). -/
def verify_parent (h : BinaryHeap T) (child_node_ind : Nat) (child : T) :
    Option Bool :=
  match parent_index h child_node_ind with
  | some parent_ind =>
      (element_at h parent_ind).map fun parent => verify_priority h parent child
  | none => some true

/-- The present children of a node, in order, as produced by
`children_indices(..).iter().filter_map(..)`. -/
def present_children (ci : Option Nat × Option Nat) : List Nat :=
  match ci with
  | (some c1, some c2) => [c1, c2]
  | (some c1, none) => [c1]
  | (none, some c2) => [c2]
  | (none, none) => []

/-- The short-circuiting `all` over child slots used by `verify_children`;
each child lookup's `unwrap` is a bind. -/
def check_children (h : BinaryHeap T) (parent : T) : List Nat → Option Bool
  | [] => some true
  | c :: rest =>
      (element_at h c).bind fun child =>
        if verify_priority h parent child then check_children h parent rest
        else some false

/-- Source: `verify_children`. -/
def verify_children (h : BinaryHeap T) (index : Nat) (parent : T) :
    Option Bool :=
  check_children h parent (present_children (children_indices h index))

/-- Source: `verify_heap_property`: the node lookup's `unwrap` may panic
(modelled by the bind); `&&` short-circuits. -/
def verify_heap_property (h : BinaryHeap T) (index : Nat) : Option Bool :=
  (element_at h index).bind fun current_node =>
    (verify_parent h index current_node).bind fun b1 =>
      if b1 then verify_children h index current_node else some false

/-- Source: `index_with_priority`.  `none` models the
`panic!("Heap Internal error!")` branch and the child `unwrap`s. -/
def index_with_priority (h : BinaryHeap T) (indices : Option Nat × Option Nat) :
    Option Nat :=
  match indices with
  | (some child1_ind, some child2_ind) =>
      (element_at h child1_ind).bind fun child1 =>
        (element_at h child2_ind).bind fun child2 =>
          if verify_priority h child1 child2 then some child1_ind
          else some child2_ind
  | (some child1_ind, none) => some child1_ind
  | (none, some child2_ind) => some child2_ind
  | (none, none) => none

/-- Source: `update_table_for_element_entry`: push the position onto the
bucket of the element now at `element_index` (creating the bucket if
absent).  The element lookup's `unwrap` is a bind. -/
def update_table_for_element_entry (hash : T → Nat) (h : BinaryHeap T)
    (element_index : Nat) : Option (BinaryHeap T) :=
  (element_at h element_index).bind fun e =>
    let hv := hash_value hash e
    match tableGet h.element_indices hv with
    | some element_present_at =>
        some { h with
          element_indices :=
            tableSet h.element_indices hv (element_present_at ++ [element_index]) }
    | none =>
        some { h with
          element_indices := tableSet h.element_indices hv [element_index] }

/-- Source: `remove_from_table`: drop position `element_was_at` from the
bucket of the element at `element_ind` (retain-filter). -/
def remove_from_table (hash : T → Nat) (h : BinaryHeap T)
    (element_ind element_was_at : Nat) : Option (BinaryHeap T) :=
  (element_at h element_ind).bind fun e =>
    let hv := hash_value hash e
    match tableGet h.element_indices hv with
    | some indices =>
        some { h with
          element_indices :=
            tableSet h.element_indices hv
              (indices.filter fun ind => ind != element_was_at) }
    | none => some h

/-- Source: `update_table_for_swap`. -/
def update_table_for_swap (hash : T → Nat) (h : BinaryHeap T)
    (ind1 ind2 : Nat) : Option (BinaryHeap T) :=
  (remove_from_table hash h ind1 ind2).bind fun h1 =>
    (remove_from_table hash h1 ind2 ind1).bind fun h2 =>
      (update_table_for_element_entry hash h2 ind1).bind fun h3 =>
        update_table_for_element_entry hash h3 ind2

/-- Source: `get_index`: the bucket for the value's hash, with an empty
bucket reported as absence. -/
def get_index (hash : T → Nat) (h : BinaryHeap T) (element : T) :
    Option (List Nat) :=
  let hv := hash_value hash element
  (tableGet h.element_indices hv).bind fun indices =>
    if indices.isEmpty then none else some indices

/-- Source: `swap_elements`: swap the two slots (out-of-range would panic,
modelled by the binds), then fix the table with `update_table_for_swap`. -/
def swap_elements (hash : T → Nat) (h : BinaryHeap T) (ind1 ind2 : Nat) :
    Option (BinaryHeap T) :=
  (element_at h ind1).bind fun a =>
    (element_at h ind2).bind fun b =>
      update_table_for_swap hash
        { h with elements := (h.elements.set ind1 b).set ind2 a } ind1 ind2

/-- Source: `push_back` (append, then record the new tail position). -/
def push_back (hash : T → Nat) (h : BinaryHeap T) (object : T) :
    Option (BinaryHeap T) :=
  let h1 : BinaryHeap T := { h with elements := h.elements ++ [object] }
  update_table_for_element_entry hash h1 (h1.elements.length - 1)

/-- Source: `push_front` (prepend, then record position 0). -/
def push_front (hash : T → Nat) (h : BinaryHeap T) (object : T) :
    Option (BinaryHeap T) :=
  let h1 : BinaryHeap T := { h with elements := object :: h.elements }
  update_table_for_element_entry hash h1 0

/-- The loop body of `bubble_up`, with an explicit iteration bound.  Each
iteration moves strictly toward the root, so the bound `start_ind + 1`
used by `bubble_up` can never be exhausted; `none` covers the `unwrap`
panic sites. -/
def bubble_up_loop (hash : T → Nat) : Nat → BinaryHeap T → Nat →
    Option (BinaryHeap T)
  | 0, _, _ => none
  | fuel + 1, h, new_element_pos =>
      match verify_heap_property h new_element_pos with
      | none => none
      | some true => some h
      | some false =>
          match parent_index h new_element_pos with
          | none => none
          | some parent_ind =>
              match swap_elements hash h new_element_pos parent_ind with
              | none => none
              | some h1 => bubble_up_loop hash fuel h1 parent_ind

/-- Source: `bubble_up`: while the node violates the heap property, swap
with its parent (the parent `unwrap` is a panic site). -/
def bubble_up (hash : T → Nat) (h : BinaryHeap T) (start_ind : Nat) :
    Option (BinaryHeap T) :=
  bubble_up_loop hash (start_ind + 1) h start_ind

/-- The loop body of `bubble_down`, with an explicit iteration bound.  Each
iteration moves strictly toward the leaves of a sequence whose length it
preserves, so the bound `length - start_ind` used by `bubble_down` can
never be exhausted; `none` covers the panic sites. -/
def bubble_down_loop (hash : T → Nat) : Nat → BinaryHeap T → Nat →
    Option (BinaryHeap T)
  | 0, _, _ => none
  | fuel + 1, h, new_element_pos =>
      match verify_heap_property h new_element_pos with
      | none => none
      | some true => some h
      | some false =>
          match index_with_priority h (children_indices h new_element_pos) with
          | none => none
          | some priority_ind =>
              match swap_elements hash h priority_ind new_element_pos with
              | none => none
              | some h1 => bubble_down_loop hash fuel h1 priority_ind

/-- Source: `bubble_down`: while the node violates the heap property, swap
with the higher-priority child (child selection may panic). -/
def bubble_down (hash : T → Nat) (h : BinaryHeap T) (start_ind : Nat) :
    Option (BinaryHeap T) :=
  bubble_down_loop hash (h.elements.length - start_ind) h start_ind

/-- Source: `check_heap_invariants_at`: evaluate both local checks (both
are computed, no short-circuit in the source) and name the violated
ones. -/
def check_heap_invariants_at (h : BinaryHeap T) (disturbed_index : Nat)
    (element : T) : Option (Option String × Option String) :=
  (verify_parent h disturbed_index element).bind fun vp =>
    (verify_children h disturbed_index element).bind fun vc =>
      some (match vp, vc with
        | true, true => (none, none)
        | true, false => (none, some CHILDREN_VIOLATION)
        | false, true => (some PARENT_VIOLATION, none)
        | false, false => (some PARENT_VIOLATION, some CHILDREN_VIOLATION))

/-- Source: `fix_invariant`; an unrecognised tag hits
`panic!("Unsupported heap invariant")`, modelled by `none`. -/
def fix_invariant (hash : T → Nat) (h : BinaryHeap T) (concerned_index : Nat)
    (violation : String) : Option (BinaryHeap T) :=
  if violation = PARENT_VIOLATION then bubble_up hash h concerned_index
  else if violation = CHILDREN_VIOLATION then bubble_down hash h concerned_index
  else none

/-- Source: `ensure_heap_invariants`: apply the repairs that fired, parent
repair first. -/
def ensure_heap_invariants (hash : T → Nat) (h : BinaryHeap T)
    (invariant_status : Option String × Option String) (concerned_index : Nat) :
    Option (BinaryHeap T) :=
  match invariant_status with
  | (some a, some b) =>
      (fix_invariant hash h concerned_index a).bind fun h1 =>
        fix_invariant hash h1 concerned_index b
  | (none, some a) => fix_invariant hash h concerned_index a
  | (some a, none) => fix_invariant hash h concerned_index a
  | (none, none) => some h

/-- Source: `handle_table_changes`: before an extraction, drop the table
entries for position 0 and for the last position. -/
def handle_table_changes (hash : T → Nat) (h : BinaryHeap T) :
    Option (BinaryHeap T) :=
  (if (h.elements.head?).isSome then remove_from_table hash h 0 0
   else some h).bind fun h1 =>
    if (h1.elements.getLast?).isSome then
      let vec_len := h1.elements.length - 1
      remove_from_table hash h1 vec_len vec_len
    else some h1

/-- Source: `insert`: append, then bubble the new tail position up. -/
def insert (hash : T → Nat) (h : BinaryHeap T) (object : T) :
    Option (BinaryHeap T) :=
  (push_back hash h object).bind fun h1 =>
    let currently_inserted_index := h1.elements.length - 1
    bubble_up hash h1 currently_inserted_index

/-- Source: `extract_object`: fix the table, pop the front (the result);
if anything remains, move the former last element to the front and bubble
it down.  Returns the extracted value together with the mutated heap. -/
def extract_object (hash : T → Nat) (h : BinaryHeap T) :
    Option (Option T × BinaryHeap T) :=
  (handle_table_changes hash h).bind fun h1 =>
    match h1.elements with
    | [] => some (none, h1)
    | front :: rest =>
        let h2 : BinaryHeap T := { h1 with elements := rest }
        match rest.getLast? with
        | none => some (some front, h2)
        | some last_entry =>
            let h3 : BinaryHeap T := { h2 with elements := rest.dropLast }
            (push_front hash h3 last_entry).bind fun h4 =>
              (bubble_down hash h4 0).map fun h5 => (some front, h5)

/-- Source: `remove_object`: look the value up in the table; remove the
first recorded position (root → extract; tail → pop; interior →
swap-to-tail, pop, then repair at the disturbed position).  Returns the
removed value together with the mutated heap. -/
def remove_object (hash : T → Nat) (h : BinaryHeap T) (object : T) :
    Option (Option T × BinaryHeap T) :=
  match get_index hash h object with
  | some present_indices =>
      (present_indices[0]?).bind fun index_to_remove =>
        let last_element_index := h.elements.length - 1
        if index_to_remove = 0 then
          extract_object hash h
        else if index_to_remove = last_element_index then
          (remove_from_table hash h last_element_index last_element_index).bind
            fun h1 =>
              some (h1.elements.getLast?,
                { h1 with elements := h1.elements.dropLast })
        else
          (swap_elements hash h index_to_remove last_element_index).bind fun h1 =>
            (remove_from_table hash h1 last_element_index
                last_element_index).bind fun h2 =>
              let removed_element := h2.elements.getLast?
              let h3 : BinaryHeap T := { h2 with elements := h2.elements.dropLast }
              (element_at h3 index_to_remove).bind fun e =>
                (check_heap_invariants_at h3 index_to_remove e).bind fun res =>
                  (ensure_heap_invariants hash h3 res index_to_remove).map
                    fun h4 => (removed_element, h4)
  | none => some (none, h)

/-- Source: `heapify`: repeated insertion over the input. -/
def heapify (hash : T → Nat) (items : List T) (kind : HeapKind) :
    Option (BinaryHeap T) :=
  items.foldl (fun acc item => acc.bind fun h => insert hash h item)
    (some (new kind))

/-- Source: `peek`, i.e. `self.elements.front()`. -/
def peek (h : BinaryHeap T) : Option T :=
  h.elements.head?

/-- Source: `len`. -/
def len (h : BinaryHeap T) : Nat :=
  h.elements.length

/-- Source: `is_empty`. -/
def is_empty (h : BinaryHeap T) : Bool :=
  h.elements.isEmpty

/-- Call `extract_object` repeatedly (at most `fuel` times, `none` when the
bound is hit) until it reports empty, collecting the extracted values in
order. -/
def extract_all (hash : T → Nat) (h : BinaryHeap T) : Nat → Option (List T)
  | 0 => none
  | fuel + 1 =>
      (extract_object hash h).bind fun r =>
        match r with
        | (none, _) => some []
        | (some x, h1) => (extract_all hash h1 fuel).map fun rest => x :: rest

/-- Run one public mutating operation, keeping only the heap state. -/
def run_op (hash : T → Nat) (h : BinaryHeap T) : HeapOp T → Option (BinaryHeap T)
  | HeapOp.insert x => insert hash h x
  | HeapOp.extract => (extract_object hash h).map Prod.snd
  | HeapOp.remove x => (remove_object hash h x).map Prod.snd

/-- Run a sequence of public mutating operations. -/
def run_ops (hash : T → Nat) (h : BinaryHeap T) :
    List (HeapOp T) → Option (BinaryHeap T)
  | [] => some h
  | op :: rest => (run_op hash h op).bind fun h1 => run_ops hash h1 rest

/-- `pri k a b`: `a` may sit at-or-above `b` under kind `k` (the
kind-indexed form of `verify_priority`). -/
def pri (k : HeapKind) (a b : T) : Bool :=
  match k with
  | HeapKind.Max => decide (b ≤ a)
  | HeapKind.Min => decide (a ≤ b)

/-- Decidable check of the heap-order invariant: every position with a
parent is dominated by it. -/
def heapOrderedB (k : HeapKind) (l : List T) : Bool :=
  (List.range l.length).all fun i =>
    i == 0 ||
      (match l[(i - 1) / 2]?, l[i]? with
       | some y, some x => pri k y x
       | _, _ => true)

/-- Decidable check of table soundness: every recorded position holds an
element with the recorded hash. -/
def tableSoundB (hash : T → Nat) (h : BinaryHeap T) : Bool :=
  h.element_indices.all fun kv =>
    (positionsOf h kv.1).all fun p =>
      match h.elements[p]? with
      | some v => hash v == kv.1
      | none => false

/-- Decidable check of table completeness: every occupied position is
recorded under its element's hash. -/
def tableCompleteB (hash : T → Nat) (h : BinaryHeap T) : Bool :=
  (List.range h.elements.length).all fun p =>
    match h.elements[p]? with
    | some v => (positionsOf h (hash v)).contains p
    | none => false

/-- Decidable check that no bucket records a position twice. -/
def tableNodupB (h : BinaryHeap T) : Bool :=
  h.element_indices.all fun kv => decide (positionsOf h kv.1).Nodup

/-- Decidable well-formedness: heap order plus a consistent position
table. -/
def WFB (hash : T → Nat) (h : BinaryHeap T) : Bool :=
  heapOrderedB h.kind h.elements && tableSoundB hash h &&
    tableCompleteB hash h && tableNodupB h


/-- Whether the element in child slot `c` (when occupied) may sit below
`x`. -/
def childOk (h : BinaryHeap T) (x : T) (c : Nat) : Bool :=
  match h.elements[c]? with
  | some y => pri h.kind x y
  | none => true

/-- Whether the parent of position `i` (when `i` is an in-range non-root
position) may sit above `x`. -/
def parentOk (h : BinaryHeap T) (i : Nat) (x : T) : Bool :=
  if 0 < i ∧ i < h.elements.length then
    match h.elements[(i - 1) / 2]? with
    | some y => pri h.kind y x
    | none => true
  else true

/-- Heap order as a proposition: every position with a parent is
dominated by it under kind `k`. -/
def HeapOrdered (k : HeapKind) (l : List T) : Prop :=
  ∀ i x y, 0 < i → l[i]? = some x → l[(i - 1) / 2]? = some y →
    pri k y x = true

/-- Table soundness as a proposition: every recorded position holds an
element with the recorded hash. -/
def TableSound (hash : T → Nat) (h : BinaryHeap T) : Prop :=
  ∀ k p, p ∈ positionsOf h k → (h.elements[p]?.map hash) = some k

/-- Table completeness as a proposition: every occupied position is
recorded under its element's hash. -/
def TableComplete (hash : T → Nat) (h : BinaryHeap T) : Prop :=
  ∀ p v, h.elements[p]? = some v → p ∈ positionsOf h (hash v)

/-- No bucket records a position twice. -/
def TableNodup (h : BinaryHeap T) : Prop :=
  ∀ k, (positionsOf h k).Nodup

/-- Consistency of the position table. -/
def TableWF (hash : T → Nat) (h : BinaryHeap T) : Prop :=
  TableSound hash h ∧ TableComplete hash h ∧ TableNodup h

/-- Well-formedness: heap order plus a consistent position table. -/
def WF (hash : T → Nat) (h : BinaryHeap T) : Prop :=
  HeapOrdered h.kind h.elements ∧ TableWF hash h

/-- The bubble-up loop invariant: every edge is ordered except possibly
the one from `j` up to its parent, and the children of `j` are dominated
by `j`'s parent (so a swap with the parent cannot break the edges to
`j`'s children). -/
def AlmostUp (k : HeapKind) (l : List T) (j : Nat) : Prop :=
  (∀ i x y, 0 < i → i ≠ j → l[i]? = some x → l[(i - 1) / 2]? = some y →
    pri k y x = true) ∧
  (∀ i x y, 0 < i → (i - 1) / 2 = j → 0 < j → l[i]? = some x →
    l[(j - 1) / 2]? = some y → pri k y x = true)

/-- The bubble-down loop invariant: every edge is ordered except possibly
the ones from `j` down to its children, and the children of `j` are
dominated by `j`'s parent (so a swap with a child cannot break the edge
up to `j`'s parent). -/
def AlmostDown (k : HeapKind) (l : List T) (j : Nat) : Prop :=
  (∀ i x y, 0 < i → (i - 1) / 2 ≠ j → l[i]? = some x →
    l[(i - 1) / 2]? = some y → pri k y x = true) ∧
  (∀ i x y, 0 < i → (i - 1) / 2 = j → 0 < j → l[i]? = some x →
    l[(j - 1) / 2]? = some y → pri k y x = true)

/-- `peek` as a state-passing operation: the source method takes `&self`,
so the state comes back unchanged. -/
def peek_st (h : BinaryHeap T) : Option T × BinaryHeap T :=
  (h.elements.head?, h)

/-- A small concrete well-formed Min heap over `Nat` (with the identity
hasher in mind), used to instantiate the verification statements. -/
def sample5 : BinaryHeap Nat :=
  { elements := [10, 20, 30, 40, 50], kind := HeapKind.Min,
    element_indices := [(10, [0]), (20, [1]), (30, [2]), (40, [3]), (50, [4])] }

end BinaryHeap

namespace BinaryHeap

variable {T : Type} [LinearOrder T]

theorem tableGet_tableSet_self (t : List (Nat × List Nat)) (k : Nat)
    (v : List Nat) : tableGet (tableSet t k v) k = some v := by
  induction t with
  | nil => simp [tableGet, tableSet]
  | cons kv rest ih =>
      obtain ⟨k2, v2⟩ := kv
      by_cases hk : k2 = k <;> simp [tableGet, tableSet, hk, ih]

theorem tableGet_tableSet_ne (t : List (Nat × List Nat)) {k k' : Nat}
    (v : List Nat) (hne : k' ≠ k) :
    tableGet (tableSet t k v) k' = tableGet t k' := by
  induction t with
  | nil => simp [tableGet, tableSet, Ne.symm hne]
  | cons kv rest ih =>
      obtain ⟨k2, v2⟩ := kv
      by_cases hk : k2 = k
      · subst hk
        simp [tableGet, tableSet, Ne.symm hne]
      · simp [tableGet, tableSet, hk, ih]

theorem tableGet_mem {t : List (Nat × List Nat)} {k : Nat} {b : List Nat}
    (h : tableGet t k = some b) : (k, b) ∈ t := by
  induction t with
  | nil => simp [tableGet] at h
  | cons kv rest ih =>
      obtain ⟨k2, v2⟩ := kv
      by_cases hk : k2 = k
      · subst hk
        simp only [tableGet, eq_self_iff_true, if_true, Option.some.injEq] at h
        simp [h]
      · simp only [tableGet, if_neg hk] at h
        exact List.mem_cons_of_mem _ (ih h)

theorem mem_filter_ne {l : List Nat} {p q : Nat} :
    p ∈ l.filter (fun x => x != q) ↔ p ∈ l ∧ p ≠ q := by
  simp [List.mem_filter]

theorem nodup_append_singleton {l : List Nat} {x : Nat} (h : l.Nodup)
    (hx : x ∉ l) : (l ++ [x]).Nodup := by
  simp [List.nodup_append, h, hx]

theorem TableWF.sound {hash : T → Nat} {h : BinaryHeap T} (ht : TableWF hash h)
    {k p : Nat} (hp : p ∈ positionsOf h k) :
    h.elements[p]?.map hash = some k :=
  ht.1 k p hp

theorem TableWF.mem_pos {hash : T → Nat} {h : BinaryHeap T}
    (ht : TableWF hash h) {k p : Nat} :
    p ∈ positionsOf h k ↔ h.elements[p]?.map hash = some k := by
  constructor
  · exact fun hp => ht.1 k p hp
  · intro hm
    rcases Option.map_eq_some'.mp hm with ⟨v, hv, hk⟩
    subst hk
    exact ht.2.1 p v hv

theorem TableWF.pos_lt {hash : T → Nat} {h : BinaryHeap T} (ht : TableWF hash h)
    {k p : Nat} (hp : p ∈ positionsOf h k) : p < h.elements.length := by
  have := ht.1 k p hp
  rcases Option.map_eq_some'.mp this with ⟨v, hv, -⟩
  exact (List.getElem?_eq_some.mp hv).1

theorem update_table_for_element_entry_spec (hash : T → Nat) (h : BinaryHeap T)
    (i : Nat) {e : T} (he : element_at h i = some e) :
    ∃ h1, update_table_for_element_entry hash h i = some h1 ∧
      h1.elements = h.elements ∧ h1.kind = h.kind ∧
      ∀ k, positionsOf h1 k =
        if k = hash e then positionsOf h k ++ [i] else positionsOf h k := by
  unfold update_table_for_element_entry
  rw [he, Option.some_bind]
  simp only [hash_value]
  rcases hg : tableGet h.element_indices (hash e) with _ | b <;>
    refine ⟨_, rfl, rfl, rfl, fun k => ?_⟩ <;> by_cases hk : k = hash e
  · subst hk
    simp only [positionsOf] at hg ⊢
    rw [tableGet_tableSet_self, hg]
    simp
  · simp only [positionsOf]
    rw [tableGet_tableSet_ne _ _ hk, if_neg hk]
  · subst hk
    simp only [positionsOf] at hg ⊢
    rw [tableGet_tableSet_self, hg]
    simp
  · simp only [positionsOf]
    rw [tableGet_tableSet_ne _ _ hk, if_neg hk]

theorem remove_from_table_spec (hash : T → Nat) (h : BinaryHeap T)
    (i was : Nat) {e : T} (he : element_at h i = some e) :
    ∃ h1, remove_from_table hash h i was = some h1 ∧
      h1.elements = h.elements ∧ h1.kind = h.kind ∧
      ∀ k, positionsOf h1 k =
        if k = hash e then (positionsOf h k).filter (fun p => p != was)
        else positionsOf h k := by
  unfold remove_from_table
  rw [he, Option.some_bind]
  simp only [hash_value]
  rcases hg : tableGet h.element_indices (hash e) with _ | b <;>
    refine ⟨_, rfl, rfl, rfl, fun k => ?_⟩ <;> by_cases hk : k = hash e
  · subst hk
    simp only [positionsOf] at hg ⊢
    rw [hg]
    simp
  · rw [if_neg hk]
  · subst hk
    simp only [positionsOf] at hg ⊢
    rw [tableGet_tableSet_self, hg]
    simp
  · simp only [positionsOf]
    rw [tableGet_tableSet_ne _ _ hk, if_neg hk]

theorem verify_priority_eq (h : BinaryHeap T) (a b : T) :
    verify_priority h a b = pri h.kind a b := by
  cases hk : h.kind <;> simp [verify_priority, pri, hk, ge_iff_le]

theorem pri_refl (k : HeapKind) (a : T) : pri k a a = true := by
  cases k <;> simp [pri]

theorem pri_total {k : HeapKind} {a b : T} (h : pri k a b = false) :
    pri k b a = true := by
  cases k <;> simp_all [pri] <;> exact le_of_lt h

theorem pri_trans {k : HeapKind} {a b c : T} (h1 : pri k a b = true)
    (h2 : pri k b c = true) : pri k a c = true := by
  cases k <;> simp_all [pri]
  · exact le_trans h2 h1
  · exact le_trans h1 h2

theorem pri_false_trans {k : HeapKind} {a b c : T} (h1 : pri k a b = false)
    (h2 : pri k b c = false) : pri k a c = false := by
  cases k <;> simp_all [pri]
  · exact lt_trans h1 h2
  · exact lt_trans h2 h1

theorem parent_slot_eq (i : Nat) :
    parent_slot i = if i = 0 then none else some ((i - 1) / 2) := by
  simp only [parent_slot, even, beq_iff_eq]
  by_cases he : i % 2 = 0 <;> by_cases h0 : i = 0 <;>
    simp only [he, h0, if_true, if_false, reduceIte]
  · subst h0
    norm_num
  · have hnn : (0 : Int) ≤ (i : Int) / 2 - 1 := by omega
    rw [if_pos hnn]
    congr 1
    omega
  · omega
  · congr 1
    omega

theorem parent_index_eq (h : BinaryHeap T) (i : Nat) :
    parent_index h i =
      if 0 < i ∧ i < h.elements.length then some ((i - 1) / 2) else none := by
  simp only [parent_index, element_at, parent_slot_eq]
  rcases hx : h.elements[i]? with _ | x
  · have hlen : h.elements.length ≤ i := List.getElem?_eq_none_iff.mp hx
    rw [Option.none_bind, if_neg (by omega)]
  · have hi : i < h.elements.length := (List.getElem?_eq_some.mp hx).1
    rw [Option.some_bind]
    by_cases h0 : i = 0
    · subst h0
      simp
    · have hp : (i - 1) / 2 < h.elements.length := by omega
      have hps : h.elements[(i - 1) / 2]? = some (h.elements.get ⟨(i - 1) / 2, hp⟩) :=
        List.getElem?_eq_getElem hp
      rw [if_neg h0, Option.some_bind, hps, Option.map_some',
        if_pos (show 0 < i ∧ i < h.elements.length by omega)]

theorem children_indices_eq (h : BinaryHeap T) (i : Nat) :
    children_indices h i =
      ((if 2 * i + 1 < h.elements.length then some (2 * i + 1) else none),
       (if 2 * i + 2 < h.elements.length then some (2 * i + 2) else none)) := by
  have e1 : (i + 1) * 2 - 1 = 2 * i + 1 := by omega
  have e2 : (i + 1) * 2 = 2 * i + 2 := by omega
  simp only [children_indices, element_at]
  rw [e1, e2]
  rcases h1 : h.elements[2 * i + 1]? with _ | x <;>
    rcases h2 : h.elements[2 * i + 2]? with _ | y
  · have := List.getElem?_eq_none_iff.mp h1
    have := List.getElem?_eq_none_iff.mp h2
    rw [if_neg (show ¬ 2 * i + 1 < h.elements.length by omega),
      if_neg (show ¬ 2 * i + 2 < h.elements.length by omega)]
  · have := List.getElem?_eq_none_iff.mp h1
    have := (List.getElem?_eq_some.mp h2).1
    omega
  · have := (List.getElem?_eq_some.mp h1).1
    have := List.getElem?_eq_none_iff.mp h2
    rw [if_pos (show 2 * i + 1 < h.elements.length by omega),
      if_neg (show ¬ 2 * i + 2 < h.elements.length by omega)]
  · have := (List.getElem?_eq_some.mp h1).1
    have := (List.getElem?_eq_some.mp h2).1
    rw [if_pos (show 2 * i + 1 < h.elements.length by omega),
      if_pos (show 2 * i + 2 < h.elements.length by omega)]

theorem swap_elements_spec (hash : T → Nat) {h : BinaryHeap T} {i j : Nat}
    {a b : T} (hne : i ≠ j) (ha : element_at h i = some a)
    (hb : element_at h j = some b) (ht : TableWF hash h) :
    ∃ h1, swap_elements hash h i j = some h1 ∧
      h1.elements = (h.elements.set i b).set j a ∧ h1.kind = h.kind ∧
      TableWF hash h1 := by
  have ha' : h.elements[i]? = some a := ha
  have hb' : h.elements[j]? = some b := hb
  have hi : i < h.elements.length := (List.getElem?_eq_some.mp ha').1
  have hj : j < h.elements.length := (List.getElem?_eq_some.mp hb').1
  have hl'i : ((h.elements.set i b).set j a)[i]? = some b := by
    rw [List.getElem?_set_ne (Ne.symm hne), List.getElem?_set_self hi]
  have hl'j : ((h.elements.set i b).set j a)[j]? = some a := by
    rw [List.getElem?_set_self (by simpa using hj)]
  have hl'other : ∀ p, p ≠ i → p ≠ j →
      ((h.elements.set i b).set j a)[p]? = h.elements[p]? := by
    intro p hpi hpj
    rw [List.getElem?_set_ne (Ne.symm hpj), List.getElem?_set_ne (Ne.symm hpi)]
  unfold swap_elements
  rw [ha, hb, Option.some_bind, Option.some_bind]
  obtain ⟨h2, hs2, he2, hk2, hp2⟩ :=
    remove_from_table_spec hash
      { h with elements := (h.elements.set i b).set j a } i j hl'i
  have he2' : h2.elements = (h.elements.set i b).set j a := he2
  unfold update_table_for_swap
  rw [hs2, Option.some_bind]
  obtain ⟨h3, hs3, he3, hk3, hp3⟩ :=
    remove_from_table_spec hash h2 j i
      (show h2.elements[j]? = some a by rw [he2']; exact hl'j)
  rw [hs3, Option.some_bind]
  obtain ⟨h4, hs4, he4, hk4, hp4⟩ :=
    update_table_for_element_entry_spec hash h3 i
      (show h3.elements[i]? = some b by rw [he3, he2']; exact hl'i)
  rw [hs4, Option.some_bind]
  obtain ⟨h5, hs5, he5, hk5, hp5⟩ :=
    update_table_for_element_entry_spec hash h4 j
      (show h4.elements[j]? = some a by rw [he4, he3, he2']; exact hl'j)
  rw [hs5]
  have he5' : h5.elements = (h.elements.set i b).set j a := by
    rw [he5, he4, he3, he2']
  have hP2 : ∀ k, positionsOf h2 k =
      if k = hash b then (positionsOf h k).filter (fun p => p != j)
      else positionsOf h k := hp2
  have hdesc : ∀ k, positionsOf h5 k =
      if k = hash a ∧ k = hash b then
        ((((positionsOf h k).filter (fun p => p != j)).filter
            (fun p => p != i)) ++ [i]) ++ [j]
      else if k = hash b then
        ((positionsOf h k).filter (fun p => p != j)) ++ [i]
      else if k = hash a then
        ((positionsOf h k).filter (fun p => p != i)) ++ [j]
      else positionsOf h k := by
    intro k
    rw [hp5 k, hp4 k, hp3 k, hP2 k]
    split_ifs <;> first | rfl | tauto
  have hsound : TableSound hash h5 := by
    intro k p hp
    rw [hdesc k] at hp
    rw [he5']
    split_ifs at hp with h1 h2 h3
    · obtain ⟨hA, hB⟩ := h1
      rcases List.mem_append.mp hp with hp1 | hpj
      · rcases List.mem_append.mp hp1 with hp2m | hpi
        · obtain ⟨hm1, hnei⟩ := mem_filter_ne.mp hp2m
          obtain ⟨hm0, hnej⟩ := mem_filter_ne.mp hm1
          rw [hl'other p hnei hnej]
          exact ht.sound hm0
        · have hpEq : p = i := by simpa using hpi
          subst hpEq
          rw [hl'i]
          simp [hB]
      · have hpEq : p = j := by simpa using hpj
        subst hpEq
        rw [hl'j]
        simp [hA]
    · rcases List.mem_append.mp hp with hp1 | hpi
      · obtain ⟨hm0, hnej⟩ := mem_filter_ne.mp hp1
        have hnei : p ≠ i := by
          intro hEq
          subst hEq
          have hs := ht.sound hm0
          rw [ha'] at hs
          simp only [Option.map_some', Option.some.injEq] at hs
          exact h1 ⟨hs.symm, h2⟩
        rw [hl'other p hnei hnej]
        exact ht.sound hm0
      · have hpEq : p = i := by simpa using hpi
        subst hpEq
        rw [hl'i]
        simp [h2]
    · rcases List.mem_append.mp hp with hp1 | hpj
      · obtain ⟨hm0, hnei⟩ := mem_filter_ne.mp hp1
        have hnej : p ≠ j := by
          intro hEq
          subst hEq
          have hs := ht.sound hm0
          rw [hb'] at hs
          simp only [Option.map_some', Option.some.injEq] at hs
          exact h2 hs.symm
        rw [hl'other p hnei hnej]
        exact ht.sound hm0
      · have hpEq : p = j := by simpa using hpj
        subst hpEq
        rw [hl'j]
        simp [h3]
    · have hs := ht.sound hp
      have hnei : p ≠ i := by
        intro hEq
        subst hEq
        rw [ha'] at hs
        simp only [Option.map_some', Option.some.injEq] at hs
        exact h3 hs.symm
      have hnej : p ≠ j := by
        intro hEq
        subst hEq
        rw [hb'] at hs
        simp only [Option.map_some', Option.some.injEq] at hs
        exact h2 hs.symm
      rw [hl'other p hnei hnej]
      exact hs
  have hcomp : TableComplete hash h5 := by
    intro p v hv
    rw [he5'] at hv
    rw [hdesc (hash v)]
    by_cases hpi : p = i
    · subst hpi
      rw [hl'i] at hv
      injection hv with hv
      subst hv
      by_cases hA : hash b = hash a <;> simp [hA, List.mem_append]
    · by_cases hpj : p = j
      · subst hpj
        rw [hl'j] at hv
        injection hv with hv
        subst hv
        by_cases hB : hash a = hash b <;> simp [hB, List.mem_append]
      · rw [hl'other p hpi hpj] at hv
        have hmem := ht.2.1 p v hv
        split_ifs with h1 h2 h3 <;>
          simp [List.mem_append, mem_filter_ne, hmem, hpi, hpj]
  have hnd : TableNodup h5 := by
    intro k
    rw [hdesc k]
    have hnd0 := ht.2.2 k
    split_ifs with h1 h2 h3
    · obtain ⟨hA, hB⟩ := h1
      refine nodup_append_singleton (nodup_append_singleton ((hnd0.filter _).filter _) ?_) ?_
      · intro hmem
        exact absurd (mem_filter_ne.mp hmem).2 (by simp)
      · intro hmem
        rcases List.mem_append.mp hmem with hm1 | hm2
        · obtain ⟨hmm, -⟩ := mem_filter_ne.mp hm1
          obtain ⟨-, hnj⟩ := mem_filter_ne.mp hmm
          exact hnj rfl
        · have hji : j = i := by simpa using hm2
          exact hne hji.symm
    · refine nodup_append_singleton (hnd0.filter _) ?_
      intro hmem
      obtain ⟨hm0, -⟩ := mem_filter_ne.mp hmem
      have hs := ht.sound hm0
      rw [ha'] at hs
      simp only [Option.map_some', Option.some.injEq] at hs
      exact h1 ⟨hs.symm, h2⟩
    · refine nodup_append_singleton (hnd0.filter _) ?_
      intro hmem
      obtain ⟨hm0, -⟩ := mem_filter_ne.mp hmem
      have hs := ht.sound hm0
      rw [hb'] at hs
      simp only [Option.map_some', Option.some.injEq] at hs
      exact h2 hs.symm
    · exact hnd0
  exact ⟨h5, rfl, he5', by rw [hk5, hk4, hk3, hk2], ⟨hsound, hcomp, hnd⟩⟩

theorem childOk_true {h : BinaryHeap T} {x : T} {c : Nat} {y : T}
    (hc : childOk h x c = true) (hy : h.elements[c]? = some y) :
    pri h.kind x y = true := by
  unfold childOk at hc
  rw [hy] at hc
  exact hc

theorem childOk_of_pri {h : BinaryHeap T} {x : T} {c : Nat}
    (hp : ∀ y, h.elements[c]? = some y → pri h.kind x y = true) :
    childOk h x c = true := by
  unfold childOk
  rcases hy : h.elements[c]? with _ | y
  · rfl
  · exact hp y hy

theorem parentOk_false {h : BinaryHeap T} {j : Nat} {x : T}
    (hp : parentOk h j x = false) :
    0 < j ∧ j < h.elements.length ∧
      ∃ y, h.elements[(j - 1) / 2]? = some y ∧ pri h.kind y x = false := by
  unfold parentOk at hp
  split at hp
  · rename_i hcond
    rcases hy : h.elements[(j - 1) / 2]? with _ | y
    · rw [hy] at hp
      exact absurd hp (by simp)
    · rw [hy] at hp
      exact ⟨hcond.1, hcond.2, y, rfl, hp⟩
  · exact absurd hp (by simp)

theorem parentOk_true {h : BinaryHeap T} {j : Nat} {x y : T}
    (hp : parentOk h j x = true) (h0 : 0 < j) (hj : j < h.elements.length)
    (hy : h.elements[(j - 1) / 2]? = some y) : pri h.kind y x = true := by
  unfold parentOk at hp
  rw [if_pos ⟨h0, hj⟩, hy] at hp
  exact hp

theorem childOk_true_kind {h : BinaryHeap T} {k : HeapKind} (hk : h.kind = k)
    {x : T} {c : Nat} {y : T}
    (hc : childOk h x c = true) (hy : h.elements[c]? = some y) :
    pri k x y = true := by
  rw [← hk]
  exact childOk_true hc hy

theorem mem_of_getElem_some {α : Type} {l : List α} {i : Nat} {a : α}
    (hl : l[i]? = some a) : a ∈ l := by
  obtain ⟨hlt, rfl⟩ := List.getElem?_eq_some.mp hl
  exact List.getElem_mem hlt

theorem verify_parent_eq (h : BinaryHeap T) (i : Nat) (x : T) :
    verify_parent h i x = some (parentOk h i x) := by
  unfold verify_parent parentOk
  rw [parent_index_eq]
  by_cases h0 : 0 < i ∧ i < h.elements.length
  · rw [if_pos h0, if_pos h0]
    have hp : (i - 1) / 2 < h.elements.length := by omega
    have hps : h.elements[(i - 1) / 2]? = some (h.elements.get ⟨(i - 1) / 2, hp⟩) :=
      List.getElem?_eq_getElem hp
    show (element_at h ((i - 1) / 2)).map (fun parent => verify_priority h parent x) = _
    rw [show element_at h ((i - 1) / 2) = h.elements[(i - 1) / 2]? from rfl, hps,
      Option.map_some', verify_priority_eq]
  · rw [if_neg h0, if_neg h0]

theorem verify_children_eq (h : BinaryHeap T) (i : Nat) (x : T) :
    verify_children h i x =
      some (childOk h x (2 * i + 1) && childOk h x (2 * i + 2)) := by
  unfold verify_children childOk
  rw [children_indices_eq]
  by_cases h1 : 2 * i + 1 < h.elements.length <;>
    by_cases h2 : 2 * i + 2 < h.elements.length
  · rw [if_pos h1, if_pos h2]
    have hc1 : h.elements[2 * i + 1]? = some (h.elements.get ⟨2 * i + 1, h1⟩) :=
      List.getElem?_eq_getElem h1
    have hc2 : h.elements[2 * i + 2]? = some (h.elements.get ⟨2 * i + 2, h2⟩) :=
      List.getElem?_eq_getElem h2
    show check_children h x [2 * i + 1, 2 * i + 2] = _
    simp only [check_children, element_at, hc1, hc2, Option.some_bind,
      verify_priority_eq]
    cases hp1 : pri h.kind x (h.elements.get ⟨2 * i + 1, h1⟩) <;>
      cases hp2 : pri h.kind x (h.elements.get ⟨2 * i + 2, h2⟩) <;> simp [hp1, hp2]
  · rw [if_pos h1, if_neg h2]
    have hc1 : h.elements[2 * i + 1]? = some (h.elements.get ⟨2 * i + 1, h1⟩) :=
      List.getElem?_eq_getElem h1
    have hc2 : h.elements[2 * i + 2]? = none := List.getElem?_eq_none (by omega)
    show check_children h x [2 * i + 1] = _
    simp only [check_children, element_at, hc1, hc2, Option.some_bind,
      verify_priority_eq]
    cases hp1 : pri h.kind x (h.elements.get ⟨2 * i + 1, h1⟩) <;> simp [hp1]
  · omega
  · rw [if_neg h1, if_neg h2]
    have hc1 : h.elements[2 * i + 1]? = none := List.getElem?_eq_none (by omega)
    have hc2 : h.elements[2 * i + 2]? = none := List.getElem?_eq_none (by omega)
    show check_children h x [] = _
    simp only [check_children, hc1, hc2]
    rfl

theorem verify_heap_property_eq (h : BinaryHeap T) (i : Nat) {x : T}
    (hx : h.elements[i]? = some x) :
    verify_heap_property h i =
      some (parentOk h i x &&
        (childOk h x (2 * i + 1) && childOk h x (2 * i + 2))) := by
  unfold verify_heap_property
  rw [show element_at h i = h.elements[i]? from rfl, hx, Option.some_bind,
    verify_parent_eq h i x, Option.some_bind]
  cases hp : parentOk h i x
  · simp
  · rw [if_pos rfl, verify_children_eq]
    simp

theorem set_append_singleton_perm {l : List T} {n : Nat} {x y : T}
    (hy : l[n]? = some y) : ((l.set n x) ++ [y]).Perm (l ++ [x]) := by
  obtain ⟨hn, hget⟩ := List.getElem?_eq_some.mp hy
  have hset : l.set n x = l.take n ++ x :: l.drop (n + 1) := by
    rw [List.set_eq_take_append_cons_drop, if_pos hn]
  have hdecomp : l = l.take n ++ y :: l.drop (n + 1) := by
    conv_lhs => rw [← List.take_append_drop n l]
    rw [← List.getElem_cons_drop l n hn, hget]
  rw [hset]
  conv_rhs => rw [hdecomp]
  rw [List.append_assoc, List.append_assoc]
  refine List.Perm.append_left _ ?_
  simp only [List.cons_append]
  refine List.Perm.trans (List.Perm.cons x List.perm_append_comm) ?_
  refine List.Perm.trans (List.Perm.swap y x _) ?_
  exact List.Perm.cons y (@List.perm_append_comm T [x] (List.drop (n + 1) l))

theorem swap_list_perm {l : List T} {i j : Nat} {a b : T} (hne : i ≠ j)
    (ha : l[i]? = some a) (hb : l[j]? = some b) :
    ((l.set i b).set j a).Perm l := by
  have hbj : (l.set i b)[j]? = some b := by
    rw [List.getElem?_set_ne hne]
    exact hb
  have h1 : ((l.set i b) ++ [a]).Perm (l ++ [b]) := set_append_singleton_perm ha
  have h2 : (((l.set i b).set j a) ++ [b]).Perm ((l.set i b) ++ [a]) :=
    set_append_singleton_perm hbj
  exact (List.perm_append_right_iff [b]).mp (h2.trans h1)

theorem almostUp_step {k : HeapKind} {l : List T} {j : Nat} {x pe : T}
    (h0 : 0 < j) (hj : l[j]? = some x) (hp : l[(j - 1) / 2]? = some pe)
    (hA : AlmostUp k l j) (hviol : pri k pe x = false) :
    AlmostUp k ((l.set j pe).set ((j - 1) / 2) x) ((j - 1) / 2) := by
  have hjlen : j < l.length := (List.getElem?_eq_some.mp hj).1
  have hplen : (j - 1) / 2 < l.length := by omega
  have hl1j : ((l.set j pe).set ((j - 1) / 2) x)[j]? = some pe := by
    rw [List.getElem?_set_ne (by omega), List.getElem?_set_self hjlen]
  have hl1p : ((l.set j pe).set ((j - 1) / 2) x)[(j - 1) / 2]? = some x := by
    rw [List.getElem?_set_self (by simpa using hplen)]
  have hl1other : ∀ q, q ≠ j → q ≠ (j - 1) / 2 →
      ((l.set j pe).set ((j - 1) / 2) x)[q]? = l[q]? := by
    intro q hq1 hq2
    rw [List.getElem?_set_ne (Ne.symm hq2), List.getElem?_set_ne (Ne.symm hq1)]
  constructor
  · intro i xi yi hi0 hip hxi hyi
    by_cases hij : i = j
    · subst hij
      rw [hl1j] at hxi
      rw [hl1p] at hyi
      injection hxi with hxi
      injection hyi with hyi
      subst hxi
      subst hyi
      exact pri_total hviol
    · by_cases hipj : (i - 1) / 2 = j
      · have higt : j < i := by omega
        rw [hipj, hl1j] at hyi
        injection hyi with hyi
        subst hyi
        rw [hl1other i hij (by omega)] at hxi
        exact hA.2 i xi pe hi0 hipj h0 hxi hp
      · by_cases hipp : (i - 1) / 2 = (j - 1) / 2
        · rw [hipp, hl1p] at hyi
          injection hyi with hyi
          subst hyi
          rw [hl1other i hij hip] at hxi
          have hold := hA.1 i xi pe hi0 hij hxi (by rw [hipp]; exact hp)
          exact pri_trans (pri_total hviol) hold
        · rw [hl1other i hij hip] at hxi
          rw [hl1other _ hipj hipp] at hyi
          exact hA.1 i xi yi hi0 hij hxi hyi
  · intro c xc yq hc0 hcp hp0 hxc hyq
    have hqnej : ((j - 1) / 2 - 1) / 2 ≠ j := by omega
    have hqnep : ((j - 1) / 2 - 1) / 2 ≠ (j - 1) / 2 := by omega
    rw [hl1other _ hqnej hqnep] at hyq
    have hqp := hA.1 ((j - 1) / 2) pe yq hp0 (by omega) hp hyq
    by_cases hcj : c = j
    · subst hcj
      rw [hl1j] at hxc
      injection hxc with hxc
      subst hxc
      exact hqp
    · have hcnep : c ≠ (j - 1) / 2 := by omega
      rw [hl1other c hcj hcnep] at hxc
      have hpc := hA.1 c xc pe hc0 hcj hxc (by rw [hcp]; exact hp)
      exact pri_trans hqp hpc

theorem bubble_up_loop_spec (hash : T → Nat) :
    ∀ (fuel : Nat) (h : BinaryHeap T) (j : Nat), j < fuel →
      j < h.elements.length → AlmostUp h.kind h.elements j → TableWF hash h →
      ∃ h1, bubble_up_loop hash fuel h j = some h1 ∧ h1.kind = h.kind ∧
        h1.elements.Perm h.elements ∧ HeapOrdered h.kind h1.elements ∧
        TableWF hash h1 := by
  intro fuel
  induction fuel with
  | zero =>
      intro h j hj
      omega
  | succ fuel ih =>
      intro h j hjf hjlen hA ht
      obtain ⟨x, hx⟩ : ∃ x, h.elements[j]? = some x := by
        rcases hxx : h.elements[j]? with _ | x
        · exact absurd (List.getElem?_eq_none_iff.mp hxx) (by omega)
        · exact ⟨x, rfl⟩
      have hc1 : childOk h x (2 * j + 1) = true := by
        apply childOk_of_pri
        intro y hy
        exact hA.1 (2 * j + 1) y x (by omega) (by omega) hy
          (by rw [show (2 * j + 1 - 1) / 2 = j by omega]; exact hx)
      have hc2 : childOk h x (2 * j + 2) = true := by
        apply childOk_of_pri
        intro y hy
        exact hA.1 (2 * j + 2) y x (by omega) (by omega) hy
          (by rw [show (2 * j + 2 - 1) / 2 = j by omega]; exact hx)
      simp only [bubble_up_loop]
      rw [verify_heap_property_eq h j hx, hc1, hc2]
      cases hpo : parentOk h j x
      · simp only [Bool.false_and]
        obtain ⟨h0, -, pe, hpe, hviol⟩ := parentOk_false hpo
        have hpi : parent_index h j = some ((j - 1) / 2) := by
          rw [parent_index_eq, if_pos ⟨h0, hjlen⟩]
        obtain ⟨h1, hsw, he1, hk1, ht1⟩ :=
          swap_elements_spec hash (show j ≠ (j - 1) / 2 by omega) hx hpe ht
        simp only [hpi, hsw]
        have hA1 : AlmostUp h1.kind h1.elements ((j - 1) / 2) := by
          rw [hk1, he1]
          exact almostUp_step h0 hx hpe hA hviol
        obtain ⟨h2, hrec, hk2, hperm2, hord2, ht2⟩ :=
          ih h1 ((j - 1) / 2) (by omega)
            (by rw [he1]; simp only [List.length_set]; omega) hA1 ht1
        refine ⟨h2, hrec, by rw [hk2, hk1], ?_, ?_, ht2⟩
        · refine hperm2.trans ?_
          rw [he1]
          exact swap_list_perm (by omega) hx hpe
        · rw [hk1] at hord2
          exact hord2
      · simp only [Bool.true_and, Bool.and_self]
        refine ⟨h, rfl, rfl, List.Perm.refl _, ?_, ht⟩
        intro i xi yi hi0 hxi hyi
        by_cases hij : i = j
        · subst hij
          rw [hx] at hxi
          injection hxi with hxi
          subst hxi
          exact parentOk_true hpo hi0 hjlen hyi
        · exact hA.1 i xi yi hi0 hij hxi hyi

theorem childOk_false {h : BinaryHeap T} {x : T} {c : Nat}
    (hc : childOk h x c = false) :
    ∃ y, h.elements[c]? = some y ∧ pri h.kind x y = false := by
  unfold childOk at hc
  rcases hy : h.elements[c]? with _ | y
  · rw [hy] at hc
    exact absurd hc (by simp)
  · rw [hy] at hc
    exact ⟨y, rfl, hc⟩

theorem index_with_priority_spec (h : BinaryHeap T) (j : Nat)
    (h1 : 2 * j + 1 < h.elements.length) :
    ∃ c ce, index_with_priority h (children_indices h j) = some c ∧
      (c = 2 * j + 1 ∨ c = 2 * j + 2) ∧ c < h.elements.length ∧
      h.elements[c]? = some ce ∧
      ∀ d de, (d = 2 * j + 1 ∨ d = 2 * j + 2) → h.elements[d]? = some de →
        pri h.kind ce de = true := by
  rw [children_indices_eq]
  have hc1 : h.elements[2 * j + 1]? = some (h.elements.get ⟨2 * j + 1, h1⟩) :=
    List.getElem?_eq_getElem h1
  by_cases h2 : 2 * j + 2 < h.elements.length
  · have hc2 : h.elements[2 * j + 2]? = some (h.elements.get ⟨2 * j + 2, h2⟩) :=
      List.getElem?_eq_getElem h2
    rw [if_pos h1, if_pos h2]
    simp only [index_with_priority, element_at, hc1, hc2, Option.some_bind,
      verify_priority_eq]
    cases hcmp : pri h.kind (h.elements.get ⟨2 * j + 1, h1⟩) (h.elements.get ⟨2 * j + 2, h2⟩)
    · simp only [Bool.false_eq_true, if_false, reduceIte]
      refine ⟨2 * j + 2, h.elements.get ⟨2 * j + 2, h2⟩, rfl, Or.inr rfl, h2, hc2, ?_⟩
      intro d de hd hde
      rcases hd with rfl | rfl
      · rw [hc1] at hde
        injection hde with hde
        subst hde
        exact pri_total hcmp
      · rw [hc2] at hde
        injection hde with hde
        subst hde
        exact pri_refl _ _
    · simp only [if_true, reduceIte]
      refine ⟨2 * j + 1, h.elements.get ⟨2 * j + 1, h1⟩, rfl, Or.inl rfl, h1, hc1, ?_⟩
      intro d de hd hde
      rcases hd with rfl | rfl
      · rw [hc1] at hde
        injection hde with hde
        subst hde
        exact pri_refl _ _
      · rw [hc2] at hde
        injection hde with hde
        subst hde
        exact hcmp
  · rw [if_pos h1, if_neg h2]
    simp only [index_with_priority]
    refine ⟨2 * j + 1, h.elements.get ⟨2 * j + 1, h1⟩, rfl, Or.inl rfl, h1, hc1, ?_⟩
    intro d de hd hde
    rcases hd with rfl | rfl
    · rw [hc1] at hde
      injection hde with hde
      subst hde
      exact pri_refl _ _
    · rw [List.getElem?_eq_none (by omega)] at hde
      exact absurd hde (by simp)

theorem almostDown_step {k : HeapKind} {l : List T} {j c : Nat} {x ce : T}
    (hj : l[j]? = some x) (hc : l[c]? = some ce) (hcp : (c - 1) / 2 = j)
    (hcr : c = 2 * j + 1 ∨ c = 2 * j + 2) (hA : AlmostDown k l j)
    (hbest : ∀ d de, (d = 2 * j + 1 ∨ d = 2 * j + 2) → l[d]? = some de →
      pri k ce de = true)
    (hcx : pri k ce x = true) :
    AlmostDown k ((l.set c x).set j ce) c := by
  have hjc : j < c := by omega
  have hclen : c < l.length := (List.getElem?_eq_some.mp hc).1
  have hjlen : j < l.length := (List.getElem?_eq_some.mp hj).1
  have hl1c : ((l.set c x).set j ce)[c]? = some x := by
    rw [List.getElem?_set_ne (by omega), List.getElem?_set_self hclen]
  have hl1j : ((l.set c x).set j ce)[j]? = some ce := by
    rw [List.getElem?_set_self (by simpa using hjlen)]
  have hl1other : ∀ q, q ≠ c → q ≠ j →
      ((l.set c x).set j ce)[q]? = l[q]? := by
    intro q hq1 hq2
    rw [List.getElem?_set_ne (Ne.symm hq2), List.getElem?_set_ne (Ne.symm hq1)]
  constructor
  · intro i xi yi hi0 hipc hxi hyi
    by_cases hij : i = j
    · subst hij
      rw [hl1j] at hxi
      injection hxi with hxi
      subst hxi
      rw [hl1other _ (by omega) (by omega)] at hyi
      exact hA.2 c ce yi (by omega) hcp hi0 hc hyi
    · by_cases hipj : (i - 1) / 2 = j
      · by_cases hic : i = c
        · subst hic
          rw [hl1c] at hxi
          injection hxi with hxi
          subst hxi
          rw [hipj, hl1j] at hyi
          injection hyi with hyi
          subst hyi
          exact hcx
        · rw [hl1other i hic hij] at hxi
          rw [hipj, hl1j] at hyi
          injection hyi with hyi
          subst hyi
          exact hbest i xi (by omega) hxi
      · have hic : i ≠ c := fun hEq => hipj (hEq ▸ hcp)
        rw [hl1other i hic hij] at hxi
        rw [hl1other _ hipc hipj] at hyi
        exact hA.1 i xi yi hi0 hipj hxi hyi
  · intro d xd yj hd0 hdc hc0 hxd hyj
    rw [hcp, hl1j] at hyj
    injection hyj with hyj
    subst hyj
    have hdj : d ≠ j := by omega
    have hdnec : d ≠ c := by omega
    rw [hl1other d hdnec hdj] at hxd
    exact hA.1 d xd ce hd0 (by omega) hxd (by rw [hdc]; exact hc)

theorem bubble_down_loop_spec (hash : T → Nat) :
    ∀ (fuel : Nat) (h : BinaryHeap T) (j : Nat),
      h.elements.length - j ≤ fuel → j < h.elements.length →
      AlmostDown h.kind h.elements j → TableWF hash h →
      ∃ h1, bubble_down_loop hash fuel h j = some h1 ∧ h1.kind = h.kind ∧
        h1.elements.Perm h.elements ∧ HeapOrdered h.kind h1.elements ∧
        TableWF hash h1 := by
  intro fuel
  induction fuel with
  | zero =>
      intro h j hf hj
      omega
  | succ fuel ih =>
      intro h j hf hjlen hA ht
      obtain ⟨x, hx⟩ : ∃ x, h.elements[j]? = some x := by
        rcases hxx : h.elements[j]? with _ | x
        · exact absurd (List.getElem?_eq_none_iff.mp hxx) (by omega)
        · exact ⟨x, rfl⟩
      have hpo : parentOk h j x = true := by
        unfold parentOk
        by_cases hcond : 0 < j ∧ j < h.elements.length
        · rw [if_pos hcond]
          rcases hy : h.elements[(j - 1) / 2]? with _ | y
          · rfl
          · exact hA.1 j x y hcond.1 (by omega) hx hy
        · rw [if_neg hcond]
      simp only [bubble_down_loop]
      rw [verify_heap_property_eq h j hx, hpo]
      cases hco : (childOk h x (2 * j + 1) && childOk h x (2 * j + 2))
      · simp only [Bool.true_and]
        have h2j1 : 2 * j + 1 < h.elements.length := by
          rcases Bool.and_eq_false_iff.mp hco with hf1 | hf2
          · obtain ⟨y, hy, -⟩ := childOk_false hf1
            exact (List.getElem?_eq_some.mp hy).1
          · obtain ⟨y, hy, -⟩ := childOk_false hf2
            have := (List.getElem?_eq_some.mp hy).1
            omega
        obtain ⟨c, ce, hiwp, hcr, hclen, hce, hbest⟩ :=
          index_with_priority_spec h j h2j1
        have hcx : pri h.kind ce x = true := by
          rcases Bool.and_eq_false_iff.mp hco with hf1 | hf2
          · obtain ⟨y, hy, hv⟩ := childOk_false hf1
            exact pri_trans (hbest _ _ (Or.inl rfl) hy) (pri_total hv)
          · obtain ⟨y, hy, hv⟩ := childOk_false hf2
            exact pri_trans (hbest _ _ (Or.inr rfl) hy) (pri_total hv)
        have hcp : (c - 1) / 2 = j := by omega
        obtain ⟨h1, hsw, he1, hk1, ht1⟩ :=
          swap_elements_spec hash (show c ≠ j by omega) hce hx ht
        simp only [hiwp, hsw]
        have hA1 : AlmostDown h1.kind h1.elements c := by
          rw [hk1, he1]
          exact almostDown_step hx hce hcp hcr hA hbest hcx
        obtain ⟨h2, hrec, hk2, hperm2, hord2, ht2⟩ :=
          ih h1 c (by rw [he1]; simp only [List.length_set]; omega)
            (by rw [he1]; simp only [List.length_set]; omega) hA1 ht1
        refine ⟨h2, hrec, by rw [hk2, hk1], ?_, ?_, ht2⟩
        · refine hperm2.trans ?_
          rw [he1]
          exact swap_list_perm (by omega) hce hx
        · rw [hk1] at hord2
          exact hord2
      · simp only [Bool.true_and]
        refine ⟨h, rfl, rfl, List.Perm.refl _, ?_, ht⟩
        intro i xi yi hi0 hxi hyi
        by_cases hiparent : (i - 1) / 2 = j
        · rw [hiparent, hx] at hyi
          injection hyi with hyi
          subst hyi
          have hir : i = 2 * j + 1 ∨ i = 2 * j + 2 := by omega
          rcases hir with rfl | rfl
          · exact childOk_true (Bool.and_eq_true_iff.mp hco).1 hxi
          · exact childOk_true (Bool.and_eq_true_iff.mp hco).2 hxi
        · exact hA.1 i xi yi hi0 hiparent hxi hyi

theorem bubble_up_spec (hash : T → Nat) {h : BinaryHeap T} {j : Nat}
    (hj : j < h.elements.length) (hA : AlmostUp h.kind h.elements j)
    (ht : TableWF hash h) :
    ∃ h1, bubble_up hash h j = some h1 ∧ h1.kind = h.kind ∧
      h1.elements.Perm h.elements ∧ HeapOrdered h.kind h1.elements ∧
      TableWF hash h1 := by
  unfold bubble_up
  exact bubble_up_loop_spec hash (j + 1) h j (by omega) hj hA ht

theorem bubble_down_spec (hash : T → Nat) {h : BinaryHeap T} {j : Nat}
    (hj : j < h.elements.length) (hA : AlmostDown h.kind h.elements j)
    (ht : TableWF hash h) :
    ∃ h1, bubble_down hash h j = some h1 ∧ h1.kind = h.kind ∧
      h1.elements.Perm h.elements ∧ HeapOrdered h.kind h1.elements ∧
      TableWF hash h1 := by
  unfold bubble_down
  exact bubble_down_loop_spec hash (h.elements.length - j) h j (by omega) hj hA ht

theorem push_back_spec (hash : T → Nat) (h : BinaryHeap T) (x : T)
    (ht : TableWF hash h) :
    ∃ h1, push_back hash h x = some h1 ∧ h1.elements = h.elements ++ [x] ∧
      h1.kind = h.kind ∧ TableWF hash h1 := by
  unfold push_back
  have hlen : (h.elements ++ [x]).length - 1 = h.elements.length := by simp
  have he : ({ h with elements := h.elements ++ [x] } :
      BinaryHeap T).elements[(({ h with elements := h.elements ++ [x] } :
        BinaryHeap T).elements).length - 1]? = some x := by
    show (h.elements ++ [x])[(h.elements ++ [x]).length - 1]? = some x
    rw [hlen]
    exact List.getElem?_concat_length h.elements x
  obtain ⟨h1, hs, hel, hk, hp⟩ :=
    update_table_for_element_entry_spec hash
      { h with elements := h.elements ++ [x] } _ he
  have hel' : h1.elements = h.elements ++ [x] := hel
  have hdesc : ∀ k, positionsOf h1 k =
      if k = hash x then positionsOf h k ++ [h.elements.length]
      else positionsOf h k := by
    intro k
    rw [hp k, hlen]
    rfl
  refine ⟨h1, hs, hel', hk, ?_, ?_, ?_⟩
  · intro k p hpm
    rw [hdesc k] at hpm
    rw [hel']
    by_cases hk2 : k = hash x
    · rw [if_pos hk2] at hpm
      rcases List.mem_append.mp hpm with hold | hnew
      · have hs0 := ht.sound hold
        have hlt := ht.pos_lt hold
        rw [List.getElem?_append_left hlt]
        exact hs0
      · have hpEq : p = h.elements.length := by simpa using hnew
        subst hpEq
        rw [List.getElem?_concat_length]
        simp [hk2]
    · rw [if_neg hk2] at hpm
      have hs0 := ht.sound hpm
      have hlt := ht.pos_lt hpm
      rw [List.getElem?_append_left hlt]
      exact hs0
  · intro p v hv
    rw [hel'] at hv
    rw [hdesc (hash v)]
    by_cases hplt : p < h.elements.length
    · rw [List.getElem?_append_left hplt] at hv
      have := ht.2.1 p v hv
      by_cases hk2 : hash v = hash x
      · rw [if_pos hk2]
        exact List.mem_append_left _ this
      · rw [if_neg hk2]
        exact this
    · have hple : p ≤ h.elements.length := by
        have := (List.getElem?_eq_some.mp hv).1
        simp at this
        omega
      have hpEq : p = h.elements.length := by omega
      subst hpEq
      rw [List.getElem?_concat_length] at hv
      injection hv with hv
      subst hv
      rw [if_pos rfl]
      exact List.mem_append_right _ (by simp)
  · intro k
    rw [hdesc k]
    by_cases hk2 : k = hash x
    · rw [if_pos hk2]
      refine nodup_append_singleton (ht.2.2 k) ?_
      intro hmem
      have := ht.pos_lt hmem
      omega
    · rw [if_neg hk2]
      exact ht.2.2 k

theorem insert_spec (hash : T → Nat) {h : BinaryHeap T} (x : T)
    (hWF : WF hash h) :
    ∃ h1, insert hash h x = some h1 ∧ h1.kind = h.kind ∧
      h1.elements.Perm (x :: h.elements) ∧ WF hash h1 := by
  obtain ⟨hord, ht⟩ := hWF
  obtain ⟨hp, hpb, hel, hk, htb⟩ := push_back_spec hash h x ht
  unfold insert
  rw [hpb, Option.some_bind]
  have hlen1 : hp.elements.length = h.elements.length + 1 := by
    rw [hel]
    simp
  have hAU : AlmostUp hp.kind hp.elements (hp.elements.length - 1) := by
    rw [hk, hel]
    constructor
    · intro i xi yi hi0 hne hxi hyi
      have hilt : i < (h.elements ++ [x]).length := (List.getElem?_eq_some.mp hxi).1
      have hilt2 : i < h.elements.length := by
        simp at hilt
        simp [hel] at hne
        omega
      rw [List.getElem?_append_left hilt2] at hxi
      rw [List.getElem?_append_left (by omega)] at hyi
      exact hord i xi yi hi0 hxi hyi
    · intro i xi yi hi0 hip h0 hxi hyi
      have hilt : i < (h.elements ++ [x]).length := (List.getElem?_eq_some.mp hxi).1
      simp [hel] at hip
      simp at hilt
      omega
  obtain ⟨h1, hbu, hk1, hperm1, hord1, ht1⟩ :=
    bubble_up_spec hash (by omega) hAU htb
  refine ⟨h1, hbu, by rw [hk1, hk], ?_, ?_, ht1⟩
  · refine hperm1.trans ?_
    rw [hel]
    exact @List.perm_append_comm T h.elements [x]
  · rw [hk1]
    exact hord1

theorem handle_table_changes_spec (hash : T → Nat) {h : BinaryHeap T}
    {front last : T} (hfront : h.elements[0]? = some front)
    (hlast : h.elements[h.elements.length - 1]? = some last) :
    ∃ h1, handle_table_changes hash h = some h1 ∧ h1.elements = h.elements ∧
      h1.kind = h.kind ∧
      ∀ k, positionsOf h1 k =
        (if k = hash last then
          (if k = hash front then (positionsOf h k).filter (fun p => p != 0)
           else positionsOf h k).filter
            (fun p => p != (h.elements.length - 1))
         else
          (if k = hash front then (positionsOf h k).filter (fun p => p != 0)
           else positionsOf h k)) := by
  unfold handle_table_changes
  have hhead : h.elements.head? = some front := by
    rw [List.head?_eq_getElem?]
    exact hfront
  rw [hhead]
  simp only [Option.isSome_some, if_true]
  obtain ⟨hA, hsA, heA, hkA, hpA⟩ := remove_from_table_spec hash h 0 0 hfront
  rw [hsA, Option.some_bind]
  have hglA : hA.elements.getLast? = some last := by
    rw [List.getLast?_eq_getElem?, heA]
    exact hlast
  rw [hglA]
  simp only [Option.isSome_some, if_true]
  have hlastA : hA.elements[hA.elements.length - 1]? = some last := by
    rw [heA]
    exact hlast
  obtain ⟨hB, hsB, heB, hkB, hpB⟩ :=
    remove_from_table_spec hash hA (hA.elements.length - 1)
      (hA.elements.length - 1) hlastA
  rw [hsB]
  refine ⟨hB, rfl, by rw [heB, heA], by rw [hkB, hkA], ?_⟩
  intro k
  rw [hpB k, hpA k, heA]

theorem heapOrdered_nil (k : HeapKind) : HeapOrdered (T := T) k [] := by
  intro i xi yi hi0 hxi hyi
  simp at hxi

theorem extract_object_empty (hash : T → Nat) {h : BinaryHeap T}
    (hL : h.elements = []) : extract_object hash h = some (none, h) := by
  unfold extract_object handle_table_changes
  simp [hL]

theorem extract_object_spec (hash : T → Nat) {h : BinaryHeap T} {front : T}
    {rest : List T} (hL : h.elements = front :: rest) (hWF : WF hash h) :
    ∃ h1, extract_object hash h = some (some front, h1) ∧ h1.kind = h.kind ∧
      (front :: h1.elements).Perm h.elements ∧ WF hash h1 := by
  obtain ⟨hord, ht⟩ := hWF
  have hfront : h.elements[0]? = some front := by
    rw [hL]
    exact List.getElem?_cons_zero
  rcases hrest : rest.getLast? with _ | last
  · -- the heap has exactly one element
    have hre : rest = [] := List.getLast?_eq_none_iff.mp hrest
    subst hre
    have hlast : h.elements[h.elements.length - 1]? = some front := by
      rw [hL]
      simp
    obtain ⟨hB, hhtc, heB, hkB, hpB⟩ := handle_table_changes_spec hash hfront hlast
    unfold extract_object
    rw [hhtc, Option.some_bind]
    simp only [heB, hL]
    refine ⟨_, rfl, hkB, ?_, ?_, ?_⟩
    · exact List.Perm.refl _
    · exact heapOrdered_nil _
    · have hempty : ∀ k p, p ∈ positionsOf hB k → False := by
        intro k p hp
        rw [hpB k] at hp
        have hn0 : h.elements.length - 1 = 0 := by
          rw [hL]
          rfl
        by_cases hkL : k = hash front
        · rw [if_pos hkL, if_pos hkL, hn0] at hp
          obtain ⟨hp1, -⟩ := mem_filter_ne.mp hp
          obtain ⟨hp0, hne0⟩ := mem_filter_ne.mp hp1
          have hlt := ht.pos_lt hp0
          rw [hL] at hlt
          simp at hlt
          exact hne0 hlt
        · rw [if_neg hkL, if_neg hkL] at hp
          have hs0 := ht.sound hp
          have hlt := ht.pos_lt hp
          rw [hL] at hlt
          simp at hlt
          subst hlt
          rw [hfront] at hs0
          simp only [Option.map_some', Option.some.injEq] at hs0
          exact hkL hs0.symm
      refine ⟨?_, ?_, ?_⟩
      · intro k p hp
        exact absurd hp (fun hc => hempty k p hc)
      · intro p v hv
        have hlt := (List.getElem?_eq_some.mp hv).1
        exact absurd (show p < 0 from hlt) (by omega)
      · intro k
        show (positionsOf hB k).Nodup
        rcases hpos : positionsOf hB k with _ | ⟨q, qs⟩
        · exact List.nodup_nil
        · exact absurd (hpos ▸ List.mem_cons_self q qs) (fun hc => hempty k q hc)
  · -- at least two elements
    obtain ⟨mid, hmid⟩ : ∃ mid, rest = mid ++ [last] := by
      rcases List.getLast?_eq_some_iff.mp hrest with ⟨ys, hys⟩
      exact ⟨ys, hys⟩
    subst hmid
    have hlen : h.elements.length = mid.length + 2 := by
      rw [hL]
      simp
    have hn1 : h.elements.length - 1 = mid.length + 1 := by omega
    have hlast : h.elements[h.elements.length - 1]? = some last := by
      rw [hL, show (front :: (mid ++ [last])).length - 1 = mid.length + 1 by simp]
      rw [List.getElem?_cons_succ]
      exact List.getElem?_concat_length mid last
    obtain ⟨hB, hhtc, heB, hkB, hpB⟩ := handle_table_changes_spec hash hfront hlast
    unfold extract_object
    rw [hhtc, Option.some_bind]
    simp only [heB, hL, List.getLast?_concat, List.dropLast_concat]
    unfold push_front
    obtain ⟨h4, hs4, he4, hk4, hp4⟩ :=
      update_table_for_element_entry_spec hash
        { hB with elements := last :: mid } 0
        (show (last :: mid)[0]? = some last from List.getElem?_cons_zero)
    simp only []
    rw [hs4, Option.some_bind]
    have he4' : h4.elements = last :: mid := he4
    have hk4' : h4.kind = h.kind := by rw [hk4, hkB]
    -- combined table description
    have hdesc : ∀ k, positionsOf h4 k =
        if k = hash last then
          ((if k = hash front then (positionsOf h k).filter (fun p => p != 0)
            else positionsOf h k).filter
            (fun p => p != (h.elements.length - 1))) ++ [0]
        else if k = hash front then (positionsOf h k).filter (fun p => p != 0)
        else positionsOf h k := by
      intro k
      have hpB' : positionsOf { hB with elements := last :: mid } k =
          if k = hash last then
            (if k = hash front then (positionsOf h k).filter (fun p => p != 0)
             else positionsOf h k).filter
              (fun p => p != (h.elements.length - 1))
          else
            (if k = hash front then (positionsOf h k).filter (fun p => p != 0)
             else positionsOf h k) := hpB k
      rw [hp4 k, hpB']
      split_ifs <;> first | rfl | tauto
    -- transfer of positions between the old and the new element list
    have hmidq : ∀ q, q < mid.length → h.elements[q + 1]? = mid[q]? := by
      intro q hq
      rw [hL, List.getElem?_cons_succ, List.getElem?_append_left hq]
    have ht4 : TableWF hash h4 := by
      refine ⟨?_, ?_, ?_⟩
      · intro k p hp
        rw [hdesc k] at hp
        rw [he4']
        have hmem_old : ∀ hq1 : p ∈ positionsOf h k, p ≠ 0 →
            p ≠ h.elements.length - 1 → (last :: mid)[p]?.map hash = some k := by
          intro hq1 hp0 hpn
          have hs0 := ht.sound hq1
          have hlt := ht.pos_lt hq1
          obtain ⟨q, rfl⟩ : ∃ q, p = q + 1 := ⟨p - 1, by omega⟩
          have hq : q < mid.length := by omega
          rw [List.getElem?_cons_succ, ← hmidq q hq]
          exact hs0
        by_cases hkL : k = hash last
        · rw [if_pos hkL] at hp
          rcases List.mem_append.mp hp with hp1 | hp0
          · obtain ⟨hp2, hpn⟩ := mem_filter_ne.mp hp1
            by_cases hkF : k = hash front
            · rw [if_pos hkF] at hp2
              obtain ⟨hp3, hp0⟩ := mem_filter_ne.mp hp2
              exact hmem_old hp3 hp0 hpn
            · rw [if_neg hkF] at hp2
              have hp0 : p ≠ 0 := by
                intro hc
                subst hc
                have hs0 := ht.sound hp2
                rw [hfront] at hs0
                simp only [Option.map_some', Option.some.injEq] at hs0
                exact hkF hs0.symm
              exact hmem_old hp2 hp0 hpn
          · have hpEq : p = 0 := by simpa using hp0
            subst hpEq
            simp [hkL]
        · rw [if_neg hkL] at hp
          have hcore : p ∈ positionsOf h k ∧ p ≠ 0 := by
            by_cases hkF : k = hash front
            · rw [if_pos hkF] at hp
              obtain ⟨hp1, hp0⟩ := mem_filter_ne.mp hp
              exact ⟨hp1, hp0⟩
            · rw [if_neg hkF] at hp
              refine ⟨hp, ?_⟩
              intro hc
              subst hc
              have hs0 := ht.sound hp
              rw [hfront] at hs0
              simp only [Option.map_some', Option.some.injEq] at hs0
              exact hkF hs0.symm
          have hpn : p ≠ h.elements.length - 1 := by
            intro hc
            subst hc
            have hs0 := ht.sound hcore.1
            rw [hlast] at hs0
            simp only [Option.map_some', Option.some.injEq] at hs0
            exact hkL hs0.symm
          exact hmem_old hcore.1 hcore.2 hpn
      · intro p v hv
        rw [he4'] at hv
        rw [hdesc (hash v)]
        rcases p with _ | q
        · rw [List.getElem?_cons_zero] at hv
          injection hv with hv
          subst hv
          rw [if_pos rfl]
          exact List.mem_append_right _ (by simp)
        · rw [List.getElem?_cons_succ] at hv
          have hq : q < mid.length := (List.getElem?_eq_some.mp hv).1
          have hvold : h.elements[q + 1]? = some v := by
            rw [hmidq q hq]
            exact hv
          have hmem := ht.2.1 (q + 1) v hvold
          have hne0 : (q + 1 : Nat) ≠ 0 := by omega
          have hnen : (q + 1 : Nat) ≠ h.elements.length - 1 := by omega
          by_cases hkL : hash v = hash last
          · rw [if_pos hkL]
            refine List.mem_append_left _ ?_
            rw [mem_filter_ne]
            refine ⟨?_, hnen⟩
            by_cases hkF : hash v = hash front
            · rw [if_pos hkF, mem_filter_ne]
              exact ⟨hmem, hne0⟩
            · rw [if_neg hkF]
              exact hmem
          · rw [if_neg hkL]
            by_cases hkF : hash v = hash front
            · rw [if_pos hkF, mem_filter_ne]
              exact ⟨hmem, hne0⟩
            · rw [if_neg hkF]
              exact hmem
      · intro k
        rw [hdesc k]
        by_cases hkL : k = hash last
        · rw [if_pos hkL]
          refine nodup_append_singleton ?_ ?_
          · by_cases hkF : k = hash front
            · rw [if_pos hkF]
              exact ((ht.2.2 k).filter _).filter _
            · rw [if_neg hkF]
              exact (ht.2.2 k).filter _
          · intro hmem
            obtain ⟨hm1, -⟩ := mem_filter_ne.mp hmem
            by_cases hkF : k = hash front
            · rw [if_pos hkF] at hm1
              obtain ⟨-, h00⟩ := mem_filter_ne.mp hm1
              exact h00 rfl
            · rw [if_neg hkF] at hm1
              have hs0 := ht.sound hm1
              rw [hfront] at hs0
              simp only [Option.map_some', Option.some.injEq] at hs0
              exact hkF hs0.symm
        · rw [if_neg hkL]
          by_cases hkF : k = hash front
          · rw [if_pos hkF]
            exact (ht.2.2 k).filter _
          · rw [if_neg hkF]
            exact ht.2.2 k
    have hAD : AlmostDown h4.kind h4.elements 0 := by
      rw [hk4', he4']
      constructor
      · intro i xi yi hi0 hipne hxi hyi
        have hilt : i < (last :: mid).length := (List.getElem?_eq_some.mp hxi).1
        have hpi0 : 0 < (i - 1) / 2 := Nat.pos_of_ne_zero hipne
        obtain ⟨q, rfl⟩ : ∃ q, i = q + 1 := ⟨i - 1, by omega⟩
        rw [List.getElem?_cons_succ] at hxi
        obtain ⟨r, hr⟩ : ∃ r, (q + 1 - 1) / 2 = r + 1 := ⟨(q + 1 - 1) / 2 - 1, by omega⟩
        rw [hr, List.getElem?_cons_succ] at hyi
        have hq : q < mid.length := (List.getElem?_eq_some.mp hxi).1
        have hrlt : r < mid.length := (List.getElem?_eq_some.mp hyi).1
        have hxold : h.elements[q + 1]? = some xi := by
          rw [hmidq q hq]
          exact hxi
        have hyold : h.elements[r + 1]? = some yi := by
          rw [hmidq r hrlt]
          exact hyi
        have hparent : (q + 1 - 1) / 2 = r + 1 := hr
        exact hord (q + 1) xi yi (by omega)
          hxold (by rw [show (q + 1 - 1) / 2 = r + 1 from hr]; exact hyold)
      · intro i xi yi hi0 hip h00 hxi hyi
        omega
    obtain ⟨h5, hbd, hk5, hperm5, hord5, ht5⟩ :=
      bubble_down_spec hash (by rw [he4']; simp) hAD ht4
    rw [hbd, Option.map_some']
    refine ⟨h5, rfl, by rw [hk5, hk4'], ?_, ?_, ht5⟩
    · refine List.Perm.cons front ?_
      refine hperm5.trans ?_
      rw [he4']
      exact @List.perm_append_comm T [last] mid
    · rw [hk5, hk4']
      rw [hk4'] at hord5
      exact hord5

theorem pop_back_table_spec (hash : T → Nat) {h : BinaryHeap T} {w : T}
    (hw : h.elements[h.elements.length - 1]? = some w) (ht : TableWF hash h) :
    ∃ h1, remove_from_table hash h (h.elements.length - 1)
        (h.elements.length - 1) = some h1 ∧
      h1.kind = h.kind ∧ h1.elements = h.elements ∧
      TableWF hash { h1 with elements := h1.elements.dropLast } := by
  obtain ⟨h1, hs1, he1, hk1, hp1⟩ :=
    remove_from_table_spec hash h (h.elements.length - 1)
      (h.elements.length - 1) hw
  have hlpos : 0 < h.elements.length := by
    have := (List.getElem?_eq_some.mp hw).1
    omega
  refine ⟨h1, hs1, hk1, he1, ?_, ?_, ?_⟩
  · intro k p hp
    show (h1.elements.dropLast[p]?.map hash) = some k
    have hp' : p ∈ positionsOf h1 k := hp
    rw [hp1 k] at hp'
    have hcore : p ∈ positionsOf h k ∧ p ≠ h.elements.length - 1 := by
      by_cases hk2 : k = hash w
      · rw [if_pos hk2] at hp'
        exact mem_filter_ne.mp hp'
      · rw [if_neg hk2] at hp'
        refine ⟨hp', ?_⟩
        intro hc
        subst hc
        have hs0 := ht.sound hp'
        rw [hw] at hs0
        simp only [Option.map_some', Option.some.injEq] at hs0
        exact hk2 hs0.symm
    have hlt := ht.pos_lt hcore.1
    rw [he1, List.getElem?_dropLast, if_pos (by omega)]
    exact ht.sound hcore.1
  · intro p v hv
    have hv' : h1.elements.dropLast[p]? = some v := hv
    rw [he1, List.getElem?_dropLast] at hv'
    by_cases hplt : p < h.elements.length - 1
    · rw [if_pos hplt] at hv'
      have hmem := ht.2.1 p v hv'
      show p ∈ positionsOf h1 (hash v)
      rw [hp1 (hash v)]
      by_cases hk2 : hash v = hash w
      · rw [if_pos hk2, mem_filter_ne]
        exact ⟨hmem, by omega⟩
      · rw [if_neg hk2]
        exact hmem
    · rw [if_neg hplt] at hv'
      exact absurd hv' (by simp)
  · intro k
    show (positionsOf h1 k).Nodup
    rw [hp1 k]
    by_cases hk2 : k = hash w
    · rw [if_pos hk2]
      exact (ht.2.2 k).filter _
    · rw [if_neg hk2]
      exact ht.2.2 k

theorem check_exclusive_aux (h3 : BinaryHeap T) (l : List T) (p : Nat) (z : T)
    {w : T} (hord : HeapOrdered h3.kind l)
    (hlen3 : h3.elements.length = l.length - 1)
    (hother : ∀ q, q ≠ p → q < l.length - 1 → h3.elements[q]? = l[q]?)
    (hw : l[p]? = some w)
    (h0 : 0 < p) (hplt : p < l.length - 1) :
    parentOk h3 p z = true ∨
      (childOk h3 z (2 * p + 1) && childOk h3 z (2 * p + 2)) = true := by
  by_cases hA : parentOk h3 p z = true
  · exact Or.inl hA
  · right
    have hAf : parentOk h3 p z = false := by
      cases hb : parentOk h3 p z
      · rfl
      · exact absurd hb hA
    obtain ⟨-, -, y, hy3, hviol1⟩ := parentOk_false hAf
    have hy : l[(p - 1) / 2]? = some y := by
      rw [← hother _ (by omega) (by omega)]
      exact hy3
    by_contra hB
    have hBf : (childOk h3 z (2 * p + 1) && childOk h3 z (2 * p + 2)) = false := by
      cases hb : (childOk h3 z (2 * p + 1) && childOk h3 z (2 * p + 2))
      · rfl
      · exact absurd hb hB
    have hviol2 : ∃ c ce, (c = 2 * p + 1 ∨ c = 2 * p + 2) ∧ l[c]? = some ce ∧
        pri h3.kind z ce = false := by
      rcases Bool.and_eq_false_iff.mp hBf with hf | hf
      · obtain ⟨ce, hce, hv⟩ := childOk_false hf
        have hclt : 2 * p + 1 < l.length - 1 := by
          have hc2 := (List.getElem?_eq_some.mp hce).1
          rw [hlen3] at hc2
          omega
        refine ⟨2 * p + 1, ce, Or.inl rfl, ?_, hv⟩
        rw [← hother _ (by omega) (by omega)]
        exact hce
      · obtain ⟨ce, hce, hv⟩ := childOk_false hf
        have hclt : 2 * p + 2 < l.length - 1 := by
          have hc2 := (List.getElem?_eq_some.mp hce).1
          rw [hlen3] at hc2
          omega
        refine ⟨2 * p + 2, ce, Or.inr rfl, ?_, hv⟩
        rw [← hother _ (by omega) (by omega)]
        exact hce
    obtain ⟨c, ce, hcr, hce, hviol2⟩ := hviol2
    have hchain1 : pri h3.kind y w = true :=
      hord p w y h0 hw (by exact hy)
    have hchain2 : pri h3.kind w ce = true :=
      hord c ce w (by omega) hce
        (by rw [show (c - 1) / 2 = p by omega]; exact hw)
    have hchain : pri h3.kind y ce = true := pri_trans hchain1 hchain2
    have hfalse : pri h3.kind y ce = false := pri_false_trans hviol1 hviol2
    rw [hchain] at hfalse
    exact absurd hfalse (by simp)

theorem remove_object_spec (hash : T → Nat) {h : BinaryHeap T} (v : T)
    (hWF : WF hash h) :
    ∃ r h1, remove_object hash h v = some (r, h1) ∧ h1.kind = h.kind ∧
      WF hash h1 ∧
      ((positionsOf h (hash v) = [] ∧ r = none ∧ h1 = h) ∨
       (∃ w, r = some w ∧ hash w = hash v ∧ w ∈ h.elements ∧
         (w :: h1.elements).Perm h.elements)) := by
  obtain ⟨hord, ht⟩ := hWF
  unfold remove_object get_index
  simp only [hash_value]
  rcases hg : tableGet h.element_indices (hash v) with _ | bucket
  · refine ⟨none, h, ?_, rfl, ⟨hord, ht⟩, Or.inl ⟨?_, rfl, rfl⟩⟩
    · simp
    · simp [positionsOf, hg]
  · rcases hbk : bucket with _ | ⟨p, ps⟩
    · subst hbk
      refine ⟨none, h, ?_, rfl, ⟨hord, ht⟩, Or.inl ⟨?_, rfl, rfl⟩⟩
      · simp
      · simp [positionsOf, hg]
    · subst hbk
      simp only [List.isEmpty_cons, Option.some_bind, if_false, Bool.false_eq_true,
        reduceIte, List.getElem?_cons_zero]
      have hpmem : p ∈ positionsOf h (hash v) := by
        simp [positionsOf, hg]
      have hsnd := ht.sound hpmem
      rcases hwl : h.elements[p]? with _ | w
      · rw [hwl] at hsnd
        exact absurd hsnd (by simp)
      · rw [hwl] at hsnd
        simp only [Option.map_some', Option.some.injEq] at hsnd
        have hplt : p < h.elements.length := (List.getElem?_eq_some.mp hwl).1
        by_cases hp0 : p = 0
        · subst hp0
          rw [if_pos rfl]
          rcases hLl : h.elements with _ | ⟨hd, tl⟩
          · rw [hLl] at hwl
            exact absurd hwl (by simp)
          · have hhd : hd = w := by
              rw [hLl, List.getElem?_cons_zero] at hwl
              injection hwl
            subst hhd
            obtain ⟨h1, hex, hk1, hperm1, hWF1⟩ :=
              extract_object_spec hash hLl ⟨hord, ht⟩
            refine ⟨some hd, h1, hex, hk1, hWF1,
              Or.inr ⟨hd, rfl, hsnd, ?_, ?_⟩⟩
            · exact List.mem_cons_self hd tl
            · conv_rhs => rw [← hLl]
              exact hperm1
        · rw [if_neg hp0]
          by_cases hpl : p = h.elements.length - 1
          · rw [if_pos hpl]
            subst hpl
            obtain ⟨h1, hs1, hk1, he1, htd⟩ := pop_back_table_spec hash hwl ht
            rw [hs1, Option.some_bind]
            have hglast : h1.elements.getLast? = some w := by
              rw [List.getLast?_eq_getElem?, he1]
              exact hwl
            rw [hglast]
            have hne : h.elements ≠ [] := by
              intro hc
              rw [hc] at hwl
              exact absurd hwl (by simp)
            have hLdecomp : h.elements =
                h.elements.dropLast ++ [w] := by
              have hgl : h.elements.getLast hne = w := by
                have h2 := List.getLast?_eq_getLast h.elements hne
                rw [List.getLast?_eq_getElem?, hwl] at h2
                injection h2 with h2
                exact h2.symm
              conv_lhs => rw [← List.dropLast_append_getLast hne]
              rw [hgl]
            refine ⟨some w, _, rfl, hk1, ⟨?_, htd⟩,
              Or.inr ⟨w, rfl, hsnd, ?_, ?_⟩⟩
            · show HeapOrdered _ (h1.elements.dropLast)
              rw [hk1, he1]
              intro i xi yi hi0 hxi hyi
              rw [List.getElem?_dropLast] at hxi hyi
              by_cases hilt : i < h.elements.length - 1
              · rw [if_pos hilt] at hxi
                by_cases hplt2 : (i - 1) / 2 < h.elements.length - 1
                · rw [if_pos hplt2] at hyi
                  exact hord i xi yi hi0 hxi hyi
                · rw [if_neg hplt2] at hyi
                  exact absurd hyi (by simp)
              · rw [if_neg hilt] at hxi
                exact absurd hxi (by simp)
            · have hmm : w ∈ h.elements.dropLast ++ [w] :=
                List.mem_append_right _ (by simp)
              rw [← hLdecomp] at hmm
              exact hmm
            · show (w :: h1.elements.dropLast).Perm h.elements
              have hp2 : (w :: h.elements.dropLast).Perm
                  (h.elements.dropLast ++ [w]) :=
                @List.perm_append_comm T [w] (h.elements.dropLast)
              rw [← hLdecomp] at hp2
              rw [he1]
              exact hp2
          · rw [if_neg hpl]
            have hlast2 : h.elements.length - 1 < h.elements.length := by omega
            obtain ⟨z, hzl⟩ : ∃ z, h.elements[h.elements.length - 1]? = some z :=
              ⟨h.elements.get ⟨h.elements.length - 1, hlast2⟩,
                List.getElem?_eq_getElem hlast2⟩
            obtain ⟨h1, hsw, he1, hk1, ht1⟩ :=
              swap_elements_spec hash (show p ≠ h.elements.length - 1 from hpl)
                hwl hzl ht
            rw [hsw, Option.some_bind]
            have hlen1 : h1.elements.length = h.elements.length := by
              rw [he1]
              simp
            have hl1last : h1.elements[h1.elements.length - 1]? = some w := by
              rw [hlen1, he1]
              rw [List.getElem?_set_self (by simpa using hlast2)]
            obtain ⟨h2, hs2, hk2, he2, htd2⟩ := pop_back_table_spec hash hl1last ht1
            rw [hlen1] at hs2
            rw [hs2, Option.some_bind]
            have hgl2 : h2.elements.getLast? = some w := by
              rw [List.getLast?_eq_getElem?, he2]
              exact hl1last
            have hlen2 : h2.elements.length = h.elements.length := by
              rw [he2]
              exact hlen1
            -- facts about the popped list
            have hdll : h2.elements.dropLast.length = h.elements.length - 1 := by
              rw [List.length_dropLast, hlen2]
            have hL3p : h2.elements.dropLast[p]? = some z := by
              rw [List.getElem?_dropLast, if_pos (by omega), he2, he1,
                List.getElem?_set_ne (show h.elements.length - 1 ≠ p from fun hc => hpl hc.symm),
                List.getElem?_set_self hplt]
            have hL3other : ∀ q, q ≠ p → q < h.elements.length - 1 →
                h2.elements.dropLast[q]? = h.elements[q]? := by
              intro q hq hqlt
              rw [List.getElem?_dropLast, if_pos (by omega), he2, he1,
                List.getElem?_set_ne (show h.elements.length - 1 ≠ q by omega),
                List.getElem?_set_ne (Ne.symm hq)]
            have hL'decomp : h1.elements = h1.elements.dropLast ++ [w] := by
              have hne1 : h1.elements ≠ [] := by
                intro hc
                rw [hc] at hlen1
                simp at hlen1
                omega
              have hgl1 : h1.elements.getLast hne1 = w := by
                have hq := List.getLast?_eq_getLast h1.elements hne1
                rw [List.getLast?_eq_getElem?, hl1last] at hq
                injection hq with hq
                exact hq.symm
              conv_lhs => rw [← List.dropLast_append_getLast hne1]
              rw [hgl1]
            have hperm_pop : (w :: h2.elements.dropLast).Perm h.elements := by
              have hp1 : (w :: h2.elements.dropLast).Perm
                  (h2.elements.dropLast ++ [w]) :=
                @List.perm_append_comm T [w] (h2.elements.dropLast)
              have hp2 : h2.elements.dropLast ++ [w] = h1.elements := by
                rw [he2]
                exact hL'decomp.symm
              have hp3 : h1.elements.Perm h.elements := by
                rw [he1]
                exact swap_list_perm hpl hwl hzl
              rw [hp2] at hp1
              exact hp1.trans hp3
            -- pairs of the popped list away from p are pairs of the original
            have hold_pair : ∀ i xi yi, 0 < i → i ≠ p → (i - 1) / 2 ≠ p →
                h2.elements.dropLast[i]? = some xi →
                h2.elements.dropLast[(i - 1) / 2]? = some yi →
                pri h.kind yi xi = true := by
              intro i xi yi hi0 hip hipp hxi hyi
              have hilt : i < h2.elements.dropLast.length :=
                (List.getElem?_eq_some.mp hxi).1
              rw [hL3other i hip (by omega)] at hxi
              rw [hL3other _ hipp (by omega)] at hyi
              exact hord i xi yi hi0 hxi hyi
            -- the old chain through position p
            have hchain : ∀ c yc ypp, (c - 1) / 2 = p → 0 < p →
                h2.elements.dropLast[c]? = some yc →
                h2.elements.dropLast[(p - 1) / 2]? = some ypp →
                pri h.kind ypp yc = true := by
              intro c yc ypp hcp hp0c hyc hypp
              have hclt : c < h2.elements.dropLast.length :=
                (List.getElem?_eq_some.mp hyc).1
              rw [hL3other c (by omega) (by omega)] at hyc
              rw [hL3other _ (by omega) (by omega)] at hypp
              have hc1 : pri h.kind ypp w = true := hord p w ypp hp0c hwl hypp
              have hc2 : pri h.kind w yc = true :=
                hord c yc w (by omega) hyc
                  (by rw [show (c - 1) / 2 = p from hcp]; exact hwl)
              exact pri_trans hc1 hc2
            -- compute the invariant check
            have hdl3 : ({ h2 with elements := h2.elements.dropLast} :
                BinaryHeap T).elements = h2.elements.dropLast := rfl
            have hk3 : ({ h2 with elements := h2.elements.dropLast} :
                BinaryHeap T).kind = h.kind := by
              show h2.kind = h.kind
              rw [hk2, hk1]
            have helem3 : element_at { h2 with elements := h2.elements.dropLast} p
                = some z := hL3p
            rw [helem3, Option.some_bind]
            simp only [check_heap_invariants_at, verify_parent_eq,
              verify_children_eq, Option.some_bind]
            have hexcl := check_exclusive_aux
              { h2 with elements := h2.elements.dropLast}
              h.elements p z
              (by rw [hk3]; exact hord) (by rw [hdl3]; exact hdll)
              (fun q hq hqlt => hL3other q hq hqlt) hwl
              (by omega) (by omega)
            cases hpo : parentOk { h2 with elements := h2.elements.dropLast} p z <;>
              cases hco : (childOk { h2 with elements := h2.elements.dropLast} z
                  (2 * p + 1) && childOk { h2 with elements := h2.elements.dropLast} z
                  (2 * p + 2))
            · rcases hexcl with hx | hx
              · rw [hpo] at hx
                exact absurd hx (by simp)
              · rw [hco] at hx
                exact absurd hx (by simp)
            · -- parent violated, children fine: bubble up
              simp only [ensure_heap_invariants, fix_invariant, PARENT_VIOLATION,
                CHILDREN_VIOLATION, reduceIte]
              have hAU : AlmostUp ({ h2 with elements := h2.elements.dropLast} :
                  BinaryHeap T).kind ({ h2 with elements := h2.elements.dropLast} :
                  BinaryHeap T).elements p := by
                rw [hk3, hdl3]
                constructor
                · intro i xi yi hi0 hip hxi hyi
                  by_cases hipp : (i - 1) / 2 = p
                  · rw [hipp, hL3p] at hyi
                    injection hyi with hyi
                    subst hyi
                    have hcr : i = 2 * p + 1 ∨ i = 2 * p + 2 := by omega
                    have hchild := Bool.and_eq_true_iff.mp hco
                    rcases hcr with rfl | rfl
                    · exact childOk_true_kind hk3 hchild.1 hxi
                    · exact childOk_true_kind hk3 hchild.2 hxi
                  · exact hold_pair i xi yi hi0 hip hipp hxi hyi
                · intro i xi yi hi0 hipeq hp0b hxi hyi
                  exact hchain i xi yi hipeq hp0b hxi hyi
              obtain ⟨h4, hbu, hk4, hperm4, hord4, ht4⟩ :=
                bubble_up_spec hash (by rw [hdl3, hdll]; omega) hAU htd2
              rw [hbu, Option.map_some']
              refine ⟨some w, h4, by rw [hgl2], by rw [hk4, hk3], ⟨?_, ht4⟩,
                Or.inr ⟨w, rfl, hsnd, ?_, ?_⟩⟩
              · rw [hk4]
                exact hord4
              · exact mem_of_getElem_some hwl
              · refine (List.Perm.cons w (hperm4.trans ?_)).trans hperm_pop
                rw [hdl3]
            · -- children violated, parent fine: bubble down
              simp only [ensure_heap_invariants, fix_invariant, PARENT_VIOLATION,
                CHILDREN_VIOLATION, reduceIte]
              have hAD : AlmostDown ({ h2 with elements := h2.elements.dropLast} :
                  BinaryHeap T).kind ({ h2 with elements := h2.elements.dropLast} :
                  BinaryHeap T).elements p := by
                rw [hk3, hdl3]
                constructor
                · intro i xi yi hi0 hipne hxi hyi
                  by_cases hip : i = p
                  · subst hip
                    rw [hL3p] at hxi
                    injection hxi with hxi
                    subst hxi
                    have hpp := parentOk_true hpo hi0
                      (by rw [hdl3]; exact (List.getElem?_eq_some.mp hL3p).1)
                      (by rw [hdl3]; exact hyi)
                    rw [hk3] at hpp
                    exact hpp
                  · exact hold_pair i xi yi hi0 hip hipne hxi hyi
                · intro i xi yi hi0 hipeq hp0b hxi hyi
                  exact hchain i xi yi hipeq hp0b hxi hyi
              obtain ⟨h4, hbd, hk4, hperm4, hord4, ht4⟩ :=
                bubble_down_spec hash (by rw [hdl3, hdll]; omega) hAD htd2
              have hneq : "CHILDREN_VIOLATION" ≠ "PARENT_VIOLATION" := by decide
              rw [hbd, if_neg hneq, Option.map_some']
              refine ⟨some w, h4, by rw [hgl2], by rw [hk4, hk3], ⟨?_, ht4⟩,
                Or.inr ⟨w, rfl, hsnd, ?_, ?_⟩⟩
              · rw [hk4]
                exact hord4
              · exact mem_of_getElem_some hwl
              · refine (List.Perm.cons w (hperm4.trans ?_)).trans hperm_pop
                rw [hdl3]
            · -- no violation: already a heap
              simp only [ensure_heap_invariants, Option.some_bind, Option.map_some']
              refine ⟨some w, _, by rw [hgl2], hk3, ⟨?_, htd2⟩,
                Or.inr ⟨w, rfl, hsnd, mem_of_getElem_some hwl, hperm_pop⟩⟩
              rw [hk3, hdl3]
              intro i xi yi hi0 hxi hyi
              by_cases hip : i = p
              · subst hip
                rw [hL3p] at hxi
                injection hxi with hxi
                subst hxi
                have hpp := parentOk_true hpo hi0
                  (by rw [hdl3]; exact (List.getElem?_eq_some.mp hL3p).1)
                  (by rw [hdl3]; exact hyi)
                rw [hk3] at hpp
                exact hpp
              · by_cases hipp : (i - 1) / 2 = p
                · rw [hipp, hL3p] at hyi
                  injection hyi with hyi
                  subst hyi
                  have hcr : i = 2 * p + 1 ∨ i = 2 * p + 2 := by omega
                  have hchild := Bool.and_eq_true_iff.mp hco
                  rcases hcr with rfl | rfl
                  · exact childOk_true_kind hk3 hchild.1 hxi
                  · exact childOk_true_kind hk3 hchild.2 hxi
                · exact hold_pair i xi yi hi0 hip hipp hxi hyi

/-- `heapOrderedB` decides `HeapOrdered`. -/
theorem heapOrderedB_iff (k : HeapKind) (l : List T) :
    heapOrderedB k l = true ↔ HeapOrdered k l := by
  unfold heapOrderedB HeapOrdered
  rw [List.all_eq_true]
  constructor
  · intro hb i x y hi0 hx hy
    have hilt : i < l.length := (List.getElem?_eq_some.mp hx).1
    have hb2 := hb i (List.mem_range.mpr hilt)
    simp only [hx, hy] at hb2
    rcases Bool.or_eq_true_iff.mp hb2 with hc | hc
    · have : i = 0 := by simpa using hc
      omega
    · exact hc
  · intro hp i hmem
    rcases Nat.eq_zero_or_pos i with rfl | hi0
    · simp
    · simp only [Bool.or_eq_true_iff]
      right
      rcases hy : l[(i - 1) / 2]? with _ | y
      · rfl
      · rcases hx : l[i]? with _ | x
        · rfl
        · exact hp i x y hi0 hx hy

/-- `tableSoundB` decides `TableSound`. -/
theorem tableSoundB_iff (hash : T → Nat) (h : BinaryHeap T) :
    tableSoundB hash h = true ↔ TableSound hash h := by
  unfold tableSoundB TableSound
  rw [List.all_eq_true]
  constructor
  · intro hb k p hp
    have hg : tableGet h.element_indices k = some (positionsOf h k) := by
      unfold positionsOf at hp
      rcases hgg : tableGet h.element_indices k with _ | b
      · rw [hgg] at hp
        simp at hp
      · unfold positionsOf
        rw [hgg]
        rfl
    have hb2 := hb (k, positionsOf h k) (tableGet_mem hg)
    simp only [List.all_eq_true] at hb2
    have hb3 := hb2 p hp
    rcases hv : h.elements[p]? with _ | v
    · simp only [hv] at hb3
      exact absurd hb3 (by decide)
    · simp only [hv] at hb3
      rw [Option.map_some']
      have : hash v = k := by simpa using hb3
      rw [this]
  · intro hs kv hmem
    simp only [List.all_eq_true]
    intro p hp
    have hm := hs kv.1 p hp
    rcases Option.map_eq_some'.mp hm with ⟨v, hv, hk⟩
    simp only [hv]
    simp [hk]

/-- `tableCompleteB` decides `TableComplete`. -/
theorem tableCompleteB_iff (hash : T → Nat) (h : BinaryHeap T) :
    tableCompleteB hash h = true ↔ TableComplete hash h := by
  unfold tableCompleteB TableComplete
  rw [List.all_eq_true]
  constructor
  · intro hb p v hv
    have hp : p < h.elements.length := (List.getElem?_eq_some.mp hv).1
    have hb2 := hb p (List.mem_range.mpr hp)
    simp only [hv] at hb2
    simpa using hb2
  · intro hc p hmem
    have hp : p < h.elements.length := List.mem_range.mp hmem
    obtain ⟨v, hv⟩ : ∃ v, h.elements[p]? = some v :=
      ⟨h.elements.get ⟨p, hp⟩, List.getElem?_eq_getElem hp⟩
    simp only [hv]
    simpa using hc p v hv

/-- `tableNodupB` decides `TableNodup`. -/
theorem tableNodupB_iff (h : BinaryHeap T) :
    tableNodupB h = true ↔ TableNodup h := by
  unfold tableNodupB TableNodup
  rw [List.all_eq_true]
  constructor
  · intro hb k
    rcases hg : tableGet h.element_indices k with _ | b
    · unfold positionsOf
      rw [hg]
      simp
    · have hb2 := hb (k, b) (tableGet_mem hg)
      simpa using hb2
  · intro hn kv hmem
    simpa using hn kv.1

/-- `WFB` decides `WF`. -/
theorem WFB_iff (hash : T → Nat) (h : BinaryHeap T) :
    WFB hash h = true ↔ WF hash h := by
  unfold WFB WF TableWF
  rw [Bool.and_eq_true, Bool.and_eq_true, Bool.and_eq_true,
    heapOrderedB_iff, tableSoundB_iff, tableCompleteB_iff, tableNodupB_iff]
  tauto

/-- In a heap-ordered list the root dominates every element. -/
theorem heapOrdered_root {k : HeapKind} {l : List T} (hord : HeapOrdered k l)
    {r : T} (hr : l[0]? = some r) :
    ∀ (i : Nat) (x : T), l[i]? = some x → pri k r x = true := by
  intro i
  induction i using Nat.strong_induction_on with
  | _ i ih =>
      intro x hx
      rcases Nat.eq_zero_or_pos i with rfl | hi0
      · rw [hr] at hx
        injection hx with hx
        subst hx
        exact pri_refl k r
      · obtain ⟨y, hy⟩ : ∃ y, l[(i - 1) / 2]? = some y := by
          have hilt : i < l.length := (List.getElem?_eq_some.mp hx).1
          have hjlt : (i - 1) / 2 < l.length := by omega
          exact ⟨l.get ⟨(i - 1) / 2, hjlt⟩, List.getElem?_eq_getElem hjlt⟩
        exact pri_trans (ih ((i - 1) / 2) (by omega) y hy) (hord i x y hi0 hx hy)

/-- The freshly created heap is well-formed. -/
theorem wf_new (hash : T → Nat) (kind : HeapKind) :
    WF hash (new (T := T) kind) := by
  refine ⟨heapOrdered_nil kind, ?_, ?_, ?_⟩
  · intro k p hp
    simp [positionsOf, tableGet, new] at hp
  · intro p v hv
    simp [new] at hv
  · intro k
    simp [positionsOf, tableGet, new]

/-- The insertion fold behind `heapify` preserves well-formedness and
accumulates exactly the inserted elements. -/
theorem heapify_fold_spec (hash : T → Nat) (items : List T) :
    ∀ {h : BinaryHeap T}, WF hash h →
    ∃ h1, items.foldl (fun acc item => acc.bind fun hh => insert hash hh item)
        (some h) = some h1 ∧ h1.kind = h.kind ∧
      h1.elements.Perm (items ++ h.elements) ∧ WF hash h1 := by
  induction items with
  | nil =>
      intro h hwf
      exact ⟨h, rfl, rfl, by simp, hwf⟩
  | cons a rest ih =>
      intro h hwf
      obtain ⟨h1, hins, hk1, hperm1, hwf1⟩ := insert_spec hash a hwf
      obtain ⟨h2, hfold, hk2, hperm2, hwf2⟩ := ih hwf1
      refine ⟨h2, ?_, hk2.trans hk1, ?_, hwf2⟩
      · rw [List.foldl_cons, Option.some_bind, hins]
        exact hfold
      · refine hperm2.trans ?_
        refine (List.Perm.append_left rest hperm1).trans ?_
        exact @List.perm_middle T a rest h.elements

/-- `heapify` succeeds, keeps the requested kind, holds exactly the input
multiset and is well-formed. -/
theorem heapify_spec (hash : T → Nat) (items : List T) (kind : HeapKind) :
    ∃ h1, heapify hash items kind = some h1 ∧ h1.kind = kind ∧
      h1.elements.Perm items ∧ WF hash h1 := by
  obtain ⟨h1, hf, hk, hp, hw⟩ := heapify_fold_spec hash items (wf_new hash kind)
  exact ⟨h1, hf, hk, by simpa [new] using hp, hw⟩

/-- Draining a well-formed heap by repeated extraction succeeds, returns
its multiset of elements, and the output comes out in priority order. -/
theorem extract_all_spec (hash : T → Nat) :
    ∀ fuel (h : BinaryHeap T), WF hash h → h.elements.length < fuel →
    ∃ out, extract_all hash h fuel = some out ∧ out.Perm h.elements ∧
      out.Pairwise (fun a b => pri h.kind a b = true) := by
  intro fuel
  induction fuel with
  | zero =>
      intro h _ hlen
      omega
  | succ fuy ih =>
      intro h hwf hlen
      rcases he : h.elements with _ | ⟨front, rest⟩
      · exact ⟨[], by simp [extract_all, extract_object_empty hash he],
          by simp, by simp⟩
      · obtain ⟨h1, hext, hk1, hperm1, hwf1⟩ := extract_object_spec hash he hwf
        have hperm1r : (front :: h1.elements).Perm (front :: rest) := by
          rw [← he]
          exact hperm1
        have hlen1 : h1.elements.length < fuy := by
          have hq := hperm1r.length_eq
          simp at hq
          rw [he] at hlen
          simp at hlen
          omega
        obtain ⟨out1, hall1, hp1, hpw1⟩ := ih h1 hwf1 hlen1
        have hord : HeapOrdered h.kind (front :: rest) := by
          rw [← he]
          exact hwf.1
        refine ⟨front :: out1, ?_, (List.Perm.cons front hp1).trans hperm1r, ?_⟩
        · simp only [extract_all, hext, Option.some_bind]
          rw [hall1, Option.map_some']
        · constructor
          · intro b hb
            have hbm1 : b ∈ h1.elements := hp1.mem_iff.mp hb
            have hbm2 : b ∈ front :: rest :=
              hperm1r.mem_iff.mp (List.mem_cons_of_mem front hbm1)
            obtain ⟨i, hi⟩ := List.mem_iff_getElem?.mp hbm2
            exact heapOrdered_root hord (List.getElem?_cons_zero) i b hi
          · have hq := hpw1
            rw [hk1] at hq
            exact hq

/-- Every public mutating operation on a well-formed heap succeeds and
preserves well-formedness and the kind. -/
theorem run_op_wf (hash : T → Nat) {h : BinaryHeap T} (hwf : WF hash h)
    (op : HeapOp T) :
    ∃ h1, run_op hash h op = some h1 ∧ h1.kind = h.kind ∧ WF hash h1 := by
  cases op with
  | insert x =>
      obtain ⟨h1, hi, hk, hp, hw⟩ := insert_spec hash x hwf
      exact ⟨h1, hi, hk, hw⟩
  | extract =>
      rcases he : h.elements with _ | ⟨front, rest⟩
      · exact ⟨h, by simp [run_op, extract_object_empty hash he], rfl, hwf⟩
      · obtain ⟨h1, hext, hk1, hperm1, hwf1⟩ := extract_object_spec hash he hwf
        exact ⟨h1, by simp [run_op, hext], hk1, hwf1⟩
  | remove x =>
      obtain ⟨r, h1, hrm, hk1, hw1, hrest⟩ := remove_object_spec hash x hwf
      exact ⟨h1, by simp [run_op, hrm], hk1, hw1⟩

/-- Any sequence of public mutating operations on a well-formed heap
succeeds and preserves well-formedness and the kind. -/
theorem run_ops_wf (hash : T → Nat) (ops : List (HeapOp T)) :
    ∀ {h : BinaryHeap T}, WF hash h →
    ∃ h1, run_ops hash h ops = some h1 ∧ h1.kind = h.kind ∧ WF hash h1 := by
  induction ops with
  | nil =>
      intro h hwf
      exact ⟨h, rfl, rfl, hwf⟩
  | cons op rest ih =>
      intro h hwf
      obtain ⟨h1, h1eq, hk1, hw1⟩ := run_op_wf hash hwf op
      obtain ⟨h2, h2eq, hk2, hw2⟩ := ih hw1
      refine ⟨h2, ?_, hk2.trans hk1, hw2⟩
      simp only [run_ops]
      rw [h1eq, Option.some_bind]
      exact h2eq

/-- C1: Sorted-extraction law: heapifying any input list (repeated
`insert`) and then draining the heap with `extract_object` until it
reports empty succeeds, and the extracted sequence is exactly the input
multiset, in non-decreasing order for a Min heap and non-increasing order
for a Max heap — i.e. a full sort of the input. -/
theorem C1_sorted_extraction (hash : T → Nat) (items : List T)
    (kind : HeapKind) :
    ∃ h0 out, heapify hash items kind = some h0 ∧
      extract_all hash h0 (items.length + 1) = some out ∧
      out.Perm items ∧
      (kind = HeapKind.Min → out.Sorted (· ≤ ·)) ∧
      (kind = HeapKind.Max → out.Sorted (· ≥ ·)) := by
  obtain ⟨h0, hh, hk, hperm, hwf⟩ := heapify_spec hash items kind
  have hlen : h0.elements.length < items.length + 1 := by
    rw [hperm.length_eq]
    omega
  obtain ⟨out, hall, hop, hpw⟩ :=
    extract_all_spec hash (items.length + 1) h0 hwf hlen
  rw [hk] at hpw
  refine ⟨h0, out, hh, hall, hop.trans hperm, ?_, ?_⟩
  · intro hmin
    rw [hmin] at hpw
    exact hpw.imp (fun hab => by simpa [pri] using hab)
  · intro hmax
    rw [hmax] at hpw
    exact hpw.imp (fun hab => by simpa [pri] using hab)

/-- C2: Heap-order invariant: after any finite sequence of `insert`,
`extract_object` and `remove_object` operations starting from an empty
heap, every occupied position with a parent satisfies
`verify_priority(parent, child)`. -/
theorem C2_heap_order_invariant (hash : T → Nat) (kind : HeapKind)
    (ops : List (HeapOp T)) :
    ∃ h1, run_ops hash (new kind) ops = some h1 ∧
      ∀ (i pi : Nat) (x y : T), parent_index h1 i = some pi →
        element_at h1 i = some x → element_at h1 pi = some y →
        verify_priority h1 y x = true := by
  obtain ⟨h1, heq, hk1, hw1⟩ := run_ops_wf hash ops (wf_new hash kind)
  refine ⟨h1, heq, ?_⟩
  intro i pi x y hpi hx hy
  rw [parent_index_eq] at hpi
  by_cases hc : 0 < i ∧ i < h1.elements.length
  · rw [if_pos hc] at hpi
    injection hpi with hpi
    subst hpi
    rw [verify_priority_eq]
    exact hw1.1 i x y hc.1 hx hy
  · rw [if_neg hc] at hpi
    exact absurd hpi (by simp)

/-- C3: Index consistency: after any finite sequence of public mutating
operations starting from an empty heap, and absent hash collisions, every
occupied position `p` holding value `v` appears exactly once in the
bucket for `hash v`, and every position recorded in that bucket holds a
value equal to `v`. -/
theorem C3_index_consistency (hash : T → Nat)
    (hinj : Function.Injective hash) (kind : HeapKind)
    (ops : List (HeapOp T)) :
    ∃ h1, run_ops hash (new kind) ops = some h1 ∧
      (∀ (p : Nat) (v : T), element_at h1 p = some v →
        (positionsOf h1 (hash v)).count p = 1) ∧
      (∀ (q : Nat) (v : T), q ∈ positionsOf h1 (hash v) →
        element_at h1 q = some v) := by
  obtain ⟨h1, heq, hk1, hw1⟩ := run_ops_wf hash ops (wf_new hash kind)
  obtain ⟨hord, hsound, hcomp, hnodup⟩ := hw1
  refine ⟨h1, heq, ?_, ?_⟩
  · intro p v hv
    exact List.count_eq_one_of_mem (hnodup (hash v)) (hcomp p v hv)
  · intro q v hq
    have hm := hsound (hash v) q hq
    rcases Option.map_eq_some'.mp hm with ⟨w, hw, hhw⟩
    have : w = v := hinj hhw
    subst this
    exact hw

/-- Witness for C3 with the identity hasher over two insertions. -/
theorem C3_witness :
    Function.Injective (fun v : Nat => v) ∧
    (∃ h1, run_ops (fun v : Nat => v) (new HeapKind.Min)
        [HeapOp.insert 5, HeapOp.insert 3] = some h1 ∧
      (∀ (p : Nat) (v : Nat), element_at h1 p = some v →
        (positionsOf h1 v).count p = 1) ∧
      (∀ (q : Nat) (v : Nat), q ∈ positionsOf h1 v →
        element_at h1 q = some v)) :=
  ⟨fun a b hab => hab,
    C3_index_consistency (fun v : Nat => v) (fun a b hab => hab)
      HeapKind.Min [HeapOp.insert 5, HeapOp.insert 3]⟩

/-- C4: Parent/child index arithmetic: for an in-range position `i`, a
parent exists iff `i > 0`; when it exists it is `i/2 - 1` for even `i`
and `i/2` for odd `i`, which equals `(i-1)/2`; and the children slots are
`2i+1` and `2i+2`, each present only when strictly below the current
length.  (The signed wrap-around of `ind as i32` above `2^31` is
idealised away, as documented in the module header.) -/
theorem C4_index_arithmetic (h : BinaryHeap T) (i : Nat)
    (hi : i < h.elements.length) :
    ((parent_index h i).isSome ↔ 0 < i) ∧
    (0 < i → parent_index h i =
      some (if even i = true then i / 2 - 1 else i / 2)) ∧
    (0 < i → (if even i = true then i / 2 - 1 else i / 2) = (i - 1) / 2) ∧
    children_indices h i =
      (if 2 * i + 1 < h.elements.length then some (2 * i + 1) else none,
       if 2 * i + 2 < h.elements.length then some (2 * i + 2) else none) := by
  have harith : 0 < i →
      (if even i = true then i / 2 - 1 else i / 2) = (i - 1) / 2 := by
    intro h0
    by_cases he : even i = true
    · rw [if_pos he]
      simp only [even, beq_iff_eq] at he
      omega
    · rw [if_neg he]
      simp only [even, beq_iff_eq] at he
      omega
  refine ⟨?_, ?_, harith, children_indices_eq h i⟩
  · rw [parent_index_eq]
    constructor
    · intro hs
      by_cases hc : 0 < i ∧ i < h.elements.length
      · exact hc.1
      · rw [if_neg hc] at hs
        simp at hs
    · intro h0
      rw [if_pos ⟨h0, hi⟩]
      rfl
  · intro h0
    rw [parent_index_eq, if_pos ⟨h0, hi⟩, harith h0]

/-- Witness for C4 at position 4 of a concrete five-element heap. -/
theorem C4_witness :
    4 < sample5.elements.length ∧
    (((parent_index sample5 4).isSome ↔ 0 < 4) ∧
     (0 < 4 → parent_index sample5 4 =
       some (if even 4 = true then 4 / 2 - 1 else 4 / 2)) ∧
     (0 < 4 → (if even 4 = true then 4 / 2 - 1 else 4 / 2) = (4 - 1) / 2) ∧
     children_indices sample5 4 =
       (if 2 * 4 + 1 < sample5.elements.length then some (2 * 4 + 1) else none,
        if 2 * 4 + 2 < sample5.elements.length then some (2 * 4 + 2)
        else none)) :=
  ⟨by decide, C4_index_arithmetic sample5 4 (by decide)⟩

/-- C5: Removal correctness: on a well-formed heap and absent hash
collisions, `remove_object v` always succeeds; if `v` is present it
returns `v` and the remaining elements are the original multiset with
exactly one occurrence of `v` erased (so a value present `k ≥ 1` times is
present `k - 1` times afterwards); if `v` is absent it returns the
no-value result and leaves the heap unchanged. -/
theorem C5_removal (hash : T → Nat) (hinj : Function.Injective hash)
    {h : BinaryHeap T} (v : T) (hwf : WF hash h) :
    ∃ r h1, remove_object hash h v = some (r, h1) ∧
      (v ∈ h.elements → r = some v ∧
        h1.elements.Perm (h.elements.erase v) ∧
        h1.elements.count v = h.elements.count v - 1) ∧
      (v ∉ h.elements → r = none ∧ h1 = h) := by
  obtain ⟨r, h1, hrm, hk1, hw1, hcases⟩ := remove_object_spec hash v hwf
  refine ⟨r, h1, hrm, ?_, ?_⟩
  · intro hv
    rcases hcases with ⟨hempty, hr, hh⟩ | ⟨w, hr, hhw, hwmem, hperm⟩
    · obtain ⟨p, hp⟩ := List.mem_iff_getElem?.mp hv
      have hq := hwf.2.2.1 p v hp
      rw [hempty] at hq
      simp at hq
    · have hwv : w = v := hinj hhw
      subst hwv
      refine ⟨hr, ?_, ?_⟩
      · exact (List.cons_perm_iff_perm_erase.mp hperm).2
      · have hc := hperm.count_eq w
        simp [List.count_cons_self] at hc
        omega
  · intro hnv
    rcases hcases with ⟨hempty, hr, hh⟩ | ⟨w, hr, hhw, hwmem, hperm⟩
    · exact ⟨hr, hh⟩
    · exact absurd (hinj hhw ▸ hwmem) hnv

/-- Witness for C5: removing 20 from the concrete five-element heap with
the identity hasher. -/
theorem C5_witness :
    Function.Injective (fun v : Nat => v) ∧ WF (fun v : Nat => v) sample5 ∧
    (∃ r h1, remove_object (fun v : Nat => v) sample5 20 = some (r, h1) ∧
      ((20 : Nat) ∈ sample5.elements → r = some 20 ∧
        h1.elements.Perm (sample5.elements.erase 20) ∧
        h1.elements.count 20 = sample5.elements.count 20 - 1) ∧
      ((20 : Nat) ∉ sample5.elements → r = none ∧ h1 = sample5)) :=
  ⟨fun a b hab => hab, (WFB_iff (fun v : Nat => v) sample5).mp (by decide),
    C5_removal (fun v : Nat => v) (fun a b hab => hab) 20
      ((WFB_iff (fun v : Nat => v) sample5).mp (by decide))⟩

/-- C6: Emptiness laws: on an empty heap (with a table that does not
record phantom positions), `extract_object`, `peek` and `remove_object`
each return the no-value result and leave the state unchanged; and on
every heap `is_empty` is true exactly when `len` is zero. -/
theorem C6_emptiness (hash : T → Nat) {h : BinaryHeap T}
    (he : h.elements = []) (hts : TableSound hash h) (v : T) :
    extract_object hash h = some (none, h) ∧ peek h = none ∧
    remove_object hash h v = some (none, h) ∧
    (∀ h2 : BinaryHeap T, is_empty h2 = true ↔ len h2 = 0) := by
  refine ⟨extract_object_empty hash he, ?_, ?_, ?_⟩
  · unfold peek
    rw [he]
    rfl
  · have hgi : get_index hash h v = none := by
      show (tableGet h.element_indices (hash_value hash v)).bind
        (fun indices => if indices.isEmpty then none else some indices) = none
      rcases hg : tableGet h.element_indices (hash_value hash v) with _ | b
      · rfl
      · rcases hb : b with _ | ⟨p, ps⟩
        · rfl
        · have hmem : p ∈ positionsOf h (hash_value hash v) := by
            unfold positionsOf
            rw [hg, hb]
            exact List.mem_cons_self p ps
          have hq := hts (hash_value hash v) p hmem
          rw [he] at hq
          simp at hq
    unfold remove_object
    rw [hgi]
  · intro h2
    unfold is_empty len
    rcases h2.elements with _ | ⟨a, l⟩ <;> simp

/-- Witness for C6 on the freshly created empty Min heap. -/
theorem C6_witness :
    (new HeapKind.Min : BinaryHeap Nat).elements = [] ∧
    TableSound (fun v : Nat => v) (new HeapKind.Min) ∧
    (extract_object (fun v : Nat => v) (new HeapKind.Min : BinaryHeap Nat) =
        some (none, new HeapKind.Min) ∧
      peek (new HeapKind.Min : BinaryHeap Nat) = none ∧
      remove_object (fun v : Nat => v) (new HeapKind.Min : BinaryHeap Nat) 7 =
        some (none, new HeapKind.Min) ∧
      (∀ h2 : BinaryHeap Nat, is_empty h2 = true ↔ len h2 = 0)) :=
  ⟨rfl, (tableSoundB_iff (fun v : Nat => v) (new HeapKind.Min)).mp (by decide),
    C6_emptiness (fun v : Nat => v) rfl
      ((tableSoundB_iff (fun v : Nat => v) (new HeapKind.Min)).mp (by decide))
      7⟩

/-- C7: Extract contract: on a non-empty well-formed heap,
`extract_object` returns the element at position 0 — the highest-priority
element under the heap kind — and the remaining elements are the original
multiset minus that one occurrence, still heap-ordered (the rearrangement
moves the former last element to the root, truncates and bubbles down, as
in the definition of `extract_object`). -/
theorem C7_extract_contract (hash : T → Nat) {h : BinaryHeap T} {front : T}
    {rest : List T} (he : h.elements = front :: rest) (hwf : WF hash h) :
    ∃ h1, extract_object hash h = some (some front, h1) ∧
      element_at h 0 = some front ∧
      (∀ x ∈ h.elements, verify_priority h front x = true) ∧
      h1.elements.Perm rest ∧
      HeapOrdered h1.kind h1.elements ∧ h1.kind = h.kind := by
  obtain ⟨h1, hext, hk1, hperm1, hwf1⟩ := extract_object_spec hash he hwf
  have hord1 : HeapOrdered h1.kind h1.elements := hwf1.1
  refine ⟨h1, hext, ?_, ?_, ?_, hord1, hk1⟩
  · show h.elements[0]? = some front
    rw [he]
    exact List.getElem?_cons_zero
  · intro x hx
    rw [verify_priority_eq]
    obtain ⟨i, hi⟩ := List.mem_iff_getElem?.mp hx
    exact heapOrdered_root hwf.1
      (by rw [he]; exact List.getElem?_cons_zero) i x hi
  · have hp := hperm1
    rw [he] at hp
    exact (List.perm_cons front).mp hp

/-- Witness for C7 on the concrete five-element heap. -/
theorem C7_witness :
    sample5.elements = 10 :: [20, 30, 40, 50] ∧
    WF (fun v : Nat => v) sample5 ∧
    (∃ h1, extract_object (fun v : Nat => v) sample5 = some (some 10, h1) ∧
      element_at sample5 0 = some 10 ∧
      (∀ x ∈ sample5.elements, verify_priority sample5 10 x = true) ∧
      h1.elements.Perm [20, 30, 40, 50] ∧
      HeapOrdered h1.kind h1.elements ∧ h1.kind = sample5.kind) :=
  ⟨rfl, (WFB_iff (fun v : Nat => v) sample5).mp (by decide),
    C7_extract_contract (fun v : Nat => v) rfl
      ((WFB_iff (fun v : Nat => v) sample5).mp (by decide))⟩

/-- C8: Repair exclusivity: on a well-formed heap, after the
interior-removal step of `remove_object` (swap the target position `p`
with the last position, drop the table entry for the last position and
pop the tail), `check_heap_invariants_at` at the disturbed position never
reports both a parent violation and a children violation: its result pair
has at most one `some`. -/
theorem C8_repair_exclusivity (hash : T → Nat) {h : BinaryHeap T} {p : Nat}
    (hwf : WF hash h) (hp0 : 0 < p) (hpl : p < h.elements.length - 1) :
    ∃ h1 h2 z res,
      swap_elements hash h p (h.elements.length - 1) = some h1 ∧
      remove_from_table hash h1 (h.elements.length - 1)
        (h.elements.length - 1) = some h2 ∧
      element_at { h2 with elements := h2.elements.dropLast } p = some z ∧
      check_heap_invariants_at { h2 with elements := h2.elements.dropLast }
        p z = some res ∧
      (res.1 = none ∨ res.2 = none) := by
  obtain ⟨hord, ht⟩ := hwf
  have hplt : p < h.elements.length := by omega
  obtain ⟨w, hwl⟩ : ∃ w, h.elements[p]? = some w :=
    ⟨h.elements.get ⟨p, hplt⟩, List.getElem?_eq_getElem hplt⟩
  have hlast2 : h.elements.length - 1 < h.elements.length := by omega
  obtain ⟨z, hzl⟩ : ∃ z, h.elements[h.elements.length - 1]? = some z :=
    ⟨h.elements.get ⟨h.elements.length - 1, hlast2⟩, List.getElem?_eq_getElem hlast2⟩
  have hpl2 : p ≠ h.elements.length - 1 := by omega
  obtain ⟨h1, hsw, he1, hk1, ht1⟩ := swap_elements_spec hash hpl2 hwl hzl ht
  have hlen1 : h1.elements.length = h.elements.length := by
    rw [he1]
    simp
  have hl1last : h1.elements[h1.elements.length - 1]? = some w := by
    rw [hlen1, he1]
    rw [List.getElem?_set_self (by simpa using hlast2)]
  obtain ⟨h2, hs2, hk2, he2, htd2⟩ := pop_back_table_spec hash hl1last ht1
  rw [hlen1] at hs2
  have hlen2 : h2.elements.length = h.elements.length := by
    rw [he2]
    exact hlen1
  have hdll : h2.elements.dropLast.length = h.elements.length - 1 := by
    rw [List.length_dropLast, hlen2]
  have hL3p : h2.elements.dropLast[p]? = some z := by
    rw [List.getElem?_dropLast, if_pos (by omega), he2, he1,
      List.getElem?_set_ne
        (show h.elements.length - 1 ≠ p from fun hc => hpl2 hc.symm),
      List.getElem?_set_self hplt]
  have hL3other : ∀ q, q ≠ p → q < h.elements.length - 1 →
      h2.elements.dropLast[q]? = h.elements[q]? := by
    intro q hq hqlt
    rw [List.getElem?_dropLast, if_pos (by omega), he2, he1,
      List.getElem?_set_ne (show h.elements.length - 1 ≠ q by omega),
      List.getElem?_set_ne (Ne.symm hq)]
  have hdl3 : ({ h2 with elements := h2.elements.dropLast} :
      BinaryHeap T).elements = h2.elements.dropLast := rfl
  have hk3 : ({ h2 with elements := h2.elements.dropLast} :
      BinaryHeap T).kind = h.kind := by
    show h2.kind = h.kind
    rw [hk2, hk1]
  have helem3 : element_at { h2 with elements := h2.elements.dropLast} p
      = some z := hL3p
  have hexcl := check_exclusive_aux
    { h2 with elements := h2.elements.dropLast} h.elements p z
    (by rw [hk3]; exact hord) (by rw [hdl3]; exact hdll)
    (fun q hq hqlt => hL3other q hq hqlt) hwl hp0 hpl
  refine ⟨h1, h2, z, ?_⟩
  simp only [check_heap_invariants_at, verify_parent_eq, verify_children_eq,
    Option.some_bind]
  cases hpo : parentOk { h2 with elements := h2.elements.dropLast} p z <;>
    cases hco : (childOk { h2 with elements := h2.elements.dropLast} z
        (2 * p + 1) && childOk { h2 with elements := h2.elements.dropLast} z
        (2 * p + 2))
  · rcases hexcl with hx | hx
    · rw [hpo] at hx
      exact absurd hx (by simp)
    · rw [hco] at hx
      exact absurd hx (by simp)
  · exact ⟨(some PARENT_VIOLATION, none), hsw, hs2, helem3, rfl, Or.inr rfl⟩
  · exact ⟨(none, some CHILDREN_VIOLATION), hsw, hs2, helem3, rfl, Or.inl rfl⟩
  · exact ⟨(none, none), hsw, hs2, helem3, rfl, Or.inl rfl⟩

/-- Witness for C8 at interior position 1 of the concrete five-element
heap. -/
theorem C8_witness :
    WF (fun v : Nat => v) sample5 ∧ 0 < 1 ∧
    1 < sample5.elements.length - 1 ∧
    (∃ h1 h2 z res,
      swap_elements (fun v : Nat => v) sample5 1
        (sample5.elements.length - 1) = some h1 ∧
      remove_from_table (fun v : Nat => v) h1 (sample5.elements.length - 1)
        (sample5.elements.length - 1) = some h2 ∧
      element_at { h2 with elements := h2.elements.dropLast } 1 = some z ∧
      check_heap_invariants_at { h2 with elements := h2.elements.dropLast }
        1 z = some res ∧
      (res.1 = none ∨ res.2 = none)) :=
  ⟨(WFB_iff (fun v : Nat => v) sample5).mp (by decide), by decide, by decide,
    C8_repair_exclusivity (fun v : Nat => v)
      ((WFB_iff (fun v : Nat => v) sample5).mp (by decide))
      (by decide) (by decide)⟩

/-- C9: Internal-panic unreachability: on a well-formed heap every public
operation completes without hitting an internal panic site (all the
`unwrap`s and the both-children-absent branch of `index_with_priority`
are modelled by `none`, so totality of the result is exactly panic
freedom); `peek` cannot panic and reports a value exactly on non-empty
heaps. -/
theorem C9_no_internal_panic (hash : T → Nat) {h : BinaryHeap T}
    (hwf : WF hash h) (x v : T) :
    (insert hash h x).isSome ∧ (extract_object hash h).isSome ∧
    (remove_object hash h v).isSome ∧
    (peek h).isSome = !h.elements.isEmpty := by
  refine ⟨?_, ?_, ?_, ?_⟩
  · obtain ⟨h1, hi, -, -, -⟩ := insert_spec hash x hwf
    rw [hi]
    rfl
  · rcases he : h.elements with _ | ⟨f, r⟩
    · rw [extract_object_empty hash he]
      rfl
    · obtain ⟨h1, hext, -, -, -⟩ := extract_object_spec hash he hwf
      rw [hext]
      rfl
  · obtain ⟨r, h1, hrm, -, -, -⟩ := remove_object_spec hash v hwf
    rw [hrm]
    rfl
  · show (h.elements.head?).isSome = !h.elements.isEmpty
    rcases h.elements with _ | ⟨a, l⟩ <;> rfl

/-- Witness for C9 on the concrete five-element heap. -/
theorem C9_witness :
    WF (fun v : Nat => v) sample5 ∧
    ((insert (fun v : Nat => v) sample5 60).isSome ∧
     (extract_object (fun v : Nat => v) sample5).isSome ∧
     (remove_object (fun v : Nat => v) sample5 20).isSome ∧
     (peek sample5).isSome = !sample5.elements.isEmpty) :=
  ⟨(WFB_iff (fun v : Nat => v) sample5).mp (by decide),
    C9_no_internal_panic (fun v : Nat => v)
      ((WFB_iff (fun v : Nat => v) sample5).mp (by decide)) 60 20⟩

/-- C10: Peek/extract agreement: on a well-formed heap on which `peek`
reports a value, `extract_object` returns that same value; and `peek`
(a `&self` method, modelled by the state-passing `peek_st`) is
idempotent — it returns the position-0 value, leaves the state and the
length unchanged, and a repeated call returns the same result. -/
theorem C10_peek_extract_agreement (hash : T → Nat) {h : BinaryHeap T}
    {x : T} (hwf : WF hash h) (hp : peek h = some x) :
    (∃ h1, extract_object hash h = some (some x, h1)) ∧
    peek_st h = (some x, h) ∧
    peek_st (peek_st h).2 = peek_st h ∧
    len (peek_st h).2 = len h := by
  have hp2 : h.elements.head? = some x := hp
  obtain ⟨rest, he⟩ : ∃ rest, h.elements = x :: rest := by
    rcases hl : h.elements with _ | ⟨a, r⟩
    · rw [hl] at hp2
      simp at hp2
    · rw [hl, List.head?_cons] at hp2
      injection hp2 with hp2
      exact ⟨r, by rw [hp2]⟩
  obtain ⟨h1, hext, -, -, -⟩ := extract_object_spec hash he hwf
  refine ⟨⟨h1, hext⟩, ?_, rfl, rfl⟩
  show (h.elements.head?, h) = (some x, h)
  rw [hp2]

/-- Witness for C10 on the concrete five-element heap. -/
theorem C10_witness :
    WF (fun v : Nat => v) sample5 ∧ peek sample5 = some 10 ∧
    ((∃ h1, extract_object (fun v : Nat => v) sample5 = some (some 10, h1)) ∧
     peek_st sample5 = (some 10, sample5) ∧
     peek_st (peek_st sample5).2 = peek_st sample5 ∧
     len (peek_st sample5).2 = len sample5) :=
  ⟨(WFB_iff (fun v : Nat => v) sample5).mp (by decide), rfl,
    C10_peek_extract_agreement (fun v : Nat => v)
      ((WFB_iff (fun v : Nat => v) sample5).mp (by decide)) rfl⟩

end BinaryHeap
